import Mathlib

/-!
Verification development for the `prettyprinter` Python library
(layout engine in `prettyprinter/doctypes.py`, `prettyprinter/layout.py`,
and the value→Doc dispatch in `prettyprinter/prettyprinter.py`).

All definitions are shallow embeddings translated from the Python source.
Python `str` docs are unboxed; we model them as the `Doc.text` constructor,
with `normalize_doc`'s special case `'' ↦ NIL` folded into `normalizeDoc`.
Python object identity on the `NIL` singleton is modelled structurally.
-/

/-- `syntax.py`: the `Token` enumeration. -/
inductive Token where
  | keywordConstant
  | nameBuiltin
  | nameEntity
  | nameFunction
  | literalString
  | stringAffix
  | stringEscape
  | numberBinary
  | numberFloat
  | numberInt
  | operator
  | punctuation
  | commentSingle
deriving DecidableEq, Repr

/-- A Doc annotation: either a syntax token (`syntax.Token`) or a
`CommentAnnotation` carrying the comment text
(`prettyprinter.py`, class `CommentAnnotation`). -/
inductive Ann where
  | token (t : Token)
  | comment (s : String)
deriving DecidableEq, Repr

/-- The Doc tree (`doctypes.py`).  Python plain strings are the `text`
constructor.  `FlatChoice` carries its `normalize_on_access`,
`_broken_normalized` and `_flat_normalized` flags as constructor fields
(the Python constructor defaults them to `False`).
`Contextual` holds the suspended function
`fn(indent, column, page_width, ribbon_width) -> Doc`. -/
inductive Doc where
  | text (s : String)
  | nil
  | hardline
  | concat (docs : List Doc)
  | nest (indent : Int) (doc : Doc)
  | flatChoice (whenBroken whenFlat : Doc)
      (normalizeOnAccess brokenNormalized flatNormalized : Bool)
  | group (doc : Doc)
  | alwaysBreak (doc : Doc)
  | fill (docs : List Doc)
  | contextual (fn : Int → Int → Int → Int → Doc)
  | annotated (doc : Doc) (ann : Ann)

/-- `doctypes.py` constant `LINE = FlatChoice(HARDLINE, ' ')`. -/
def LINE : Doc := .flatChoice .hardline (.text " ") false false false

/-- `doctypes.py` constant `SOFTLINE = FlatChoice(HARDLINE, NIL)`. -/
def SOFTLINE : Doc := .flatChoice .hardline .nil false false false

/-- The loop body of `Concat.normalize` (`doctypes.py` lines 53-66),
applied to the already-normalized children: flatten child `Concat`s,
unwrap child `AlwaysBreak`s (setting the `propagate_broken` flag),
drop `NIL`s.  Returns the collected children and the flag. -/
def flattenConcatChildren : List Doc → List Doc × Bool
  | [] => ([], false)
  | d :: rest =>
    let (ds, b) := flattenConcatChildren rest
    match d with
    | .concat inner => (inner ++ ds, b)
    | .alwaysBreak inner => (inner :: ds, true)
    | .nil => (ds, b)
    | other => (other :: ds, b)

/-- The loop body of `Fill.normalize` (`doctypes.py` lines 230-241):
children are *not* normalized; a single `AlwaysBreak` layer is unwrapped
(setting the flag), `NIL` children are dropped. -/
def fillChildren : List Doc → List Doc × Bool
  | [] => ([], false)
  | d :: rest =>
    let (ds, b) := fillChildren rest
    match d with
    | .alwaysBreak inner =>
      match inner with
      | .nil => (ds, true)
      | x => (x :: ds, true)
    | .nil => (ds, b)
    | other => (other :: ds, b)

mutual

/-- `normalize_doc` / the `normalize` methods of each Doc class
(`doctypes.py`).  An empty string normalizes to `NIL`; `Concat`
normalizes children, flattens and hoists `AlwaysBreak`; `Nest` hoists
`AlwaysBreak`; `FlatChoice` is lazily normalized (only the
`normalize_on_access` flag is set); `Group` collapses over
`AlwaysBreak`/`NIL`; `AlwaysBreak` collapses a doubled layer; `Fill`
filters children; `Contextual` passes through; `Annotated` recurses. -/
def normalizeDoc : Doc → Doc
  | .text s => if s = "" then .nil else .text s
  | .nil => .nil
  | .hardline => .hardline
  | .concat ds =>
    match flattenConcatChildren (normalizeList ds) with
    | ([], _) => .nil
    | ([d], false) => d
    | ([d], true) => .alwaysBreak d
    | (l, false) => .concat l
    | (l, true) => .alwaysBreak (.concat l)
  | .nest i d =>
    match normalizeDoc d with
    | .alwaysBreak inner => .alwaysBreak (.nest i inner)
    | nd => .nest i nd
  | .flatChoice wb wf noa bn fn =>
    if noa then .flatChoice wb wf noa bn fn
    else .flatChoice wb wf true false false
  | .group d =>
    match normalizeDoc d with
    | .alwaysBreak inner => .alwaysBreak inner
    | .nil => .nil
    | nd => .group nd
  | .alwaysBreak d =>
    match normalizeDoc d with
    | .alwaysBreak inner => .alwaysBreak inner
    | nd => .alwaysBreak nd
  | .fill ds =>
    match fillChildren ds with
    | ([], _) => .nil
    | (l, false) => .fill l
    | (l, true) => .alwaysBreak (.fill l)
  | .contextual fn => .contextual fn
  | .annotated d a => .annotated (normalizeDoc d) a

/-- Normalization mapped over a list of children (the
`doc = normalize_doc(doc)` step of the `Concat.normalize` loop). -/
def normalizeList : List Doc → List Doc
  | [] => []
  | d :: rest => normalizeDoc d :: normalizeList rest

end

/-- Discriminator: is this Doc a `Concat` node? -/
def Doc.isConcat : Doc → Bool
  | .concat _ => true
  | _ => false

/-- Discriminator: is this Doc an `AlwaysBreak` node? -/
def Doc.isAB : Doc → Bool
  | .alwaysBreak _ => true
  | _ => false

/-- Discriminator: is this Doc a `Group` node? -/
def Doc.isGroup : Doc → Bool
  | .group _ => true
  | _ => false

/-- Unwrap one `AlwaysBreak` layer (identity on other Docs); used only to
state discriminating facts about normalization results. -/
def Doc.unwrapAB : Doc → Doc
  | .alwaysBreak d => d
  | d => d

mutual

/-- `true` iff no `AlwaysBreak` node occurs anywhere in the tree
(`Contextual` thunks are not inspected). -/
def noAB : Doc → Bool
  | .alwaysBreak _ => false
  | .concat ds => noABList ds
  | .fill ds => noABList ds
  | .nest _ d => noAB d
  | .group d => noAB d
  | .annotated d _ => noAB d
  | .flatChoice wb wf _ _ _ => noAB wb && noAB wf
  | _ => true

def noABList : List Doc → Bool
  | [] => true
  | d :: rest => noAB d && noABList rest

end

mutual

/-- `true` iff the tree contains none of the lazily- or
specially-normalized nodes `AlwaysBreak`, `Fill`, `FlatChoice`
(`Contextual` thunks are not inspected). -/
def eagerOnly : Doc → Bool
  | .alwaysBreak _ => false
  | .fill _ => false
  | .flatChoice _ _ _ _ _ => false
  | .concat ds => eagerOnlyList ds
  | .nest _ d => eagerOnly d
  | .group d => eagerOnly d
  | .annotated d _ => eagerOnly d
  | _ => true

def eagerOnlyList : List Doc → Bool
  | [] => true
  | d :: rest => eagerOnly d && eagerOnlyList rest

end

mutual

/-- `true` iff somewhere in the tree a `Concat` node has an immediate
`Concat` child (`Contextual` thunks are not inspected). -/
def hasNestedConcat : Doc → Bool
  | .concat ds => ds.any Doc.isConcat || hncList ds
  | .fill ds => hncList ds
  | .nest _ d => hasNestedConcat d
  | .group d => hasNestedConcat d
  | .alwaysBreak d => hasNestedConcat d
  | .annotated d _ => hasNestedConcat d
  | .flatChoice wb wf _ _ _ => hasNestedConcat wb || hasNestedConcat wf
  | _ => false

def hncList : List Doc → Bool
  | [] => false
  | d :: rest => hasNestedConcat d || hncList rest

end

/-! ### The mutable state of a `FlatChoice` node

`FlatChoice.when_broken` / `FlatChoice.when_flat` (`doctypes.py` lines
144-156) are properties that normalize-and-cache on access.  We model a
node's mutable slots as a record, and each property access as a function
returning the accessed value together with the updated record. -/

/-- The five slots of a `FlatChoice` object. -/
structure FlatChoiceCell where
  whenBroken : Doc
  whenFlat : Doc
  normalizeOnAccess : Bool
  brokenNormalized : Bool
  flatNormalized : Bool

/-- The `when_broken` property (`doctypes.py` lines 144-149): if
`normalize_on_access` is set and the broken branch was not normalized
yet, normalize it in place and mark it. -/
def accessWhenBroken (c : FlatChoiceCell) : Doc × FlatChoiceCell :=
  if c.normalizeOnAccess && !c.brokenNormalized then
    let nb := normalizeDoc c.whenBroken
    (nb, { c with whenBroken := nb, brokenNormalized := true })
  else (c.whenBroken, c)

/-- The `when_flat` property (`doctypes.py` lines 151-156): the guard
tests `self._broken_normalized` (not `normalize_on_access`), so the flat
branch is only normalized once the broken branch has been accessed. -/
def accessWhenFlat (c : FlatChoiceCell) : Doc × FlatChoiceCell :=
  if c.brokenNormalized && !c.flatNormalized then
    let nf := normalizeDoc c.whenFlat
    (nf, { c with whenFlat := nf, flatNormalized := true })
  else (c.whenFlat, c)

/-- The cell produced for `FlatChoice(wb, wf).normalize()`:
`normalize_on_access` set, both cached flags clear, branches untouched. -/
def normalizedCell (wb wf : Doc) : FlatChoiceCell :=
  ⟨wb, wf, true, false, false⟩

example : normalizeDoc (.concat [.text "a", .text ""]) = .text "a" := rfl

example :
    normalizeDoc (.concat [.alwaysBreak (.concat [.text "a", .text "b"]), .text "c"]) =
      .alwaysBreak (.concat [.concat [.text "a", .text "b"], .text "c"]) := rfl

/-! ### Shape analysis of normalization results (for the idempotence and
nested-`Concat` claims). -/

/-- A Doc that normalization maps to itself and that is none of `NIL`, a
`Concat`, or an `AlwaysBreak`. -/
def NormalAtom (d : Doc) : Prop :=
  normalizeDoc d = d ∧ d ≠ .nil ∧ d.isConcat = false ∧ d.isAB = false

/-- Shape of a normalized child as seen by the `Concat.normalize` loop:
`NIL`, an atom, or a `Concat` of atoms. -/
def NFish (d : Doc) : Prop :=
  d = .nil ∨ NormalAtom d ∨ ∃ l, d = .concat l ∧ ∀ x ∈ l, NormalAtom x

/-- Shape of `normalizeDoc d` for an `AlwaysBreak`-free `d`: `NIL`, an
atom, or a `Concat` of at least two atoms. -/
def NormalForm (d : Doc) : Prop :=
  d = .nil ∨ NormalAtom d ∨
    ∃ l, d = .concat l ∧ 2 ≤ l.length ∧ ∀ x ∈ l, NormalAtom x

theorem NormalForm.nfish {d : Doc} (h : NormalForm d) : NFish d := by
  rcases h with h | h | ⟨l, h1, _, h3⟩
  · exact Or.inl h
  · exact Or.inr (Or.inl h)
  · exact Or.inr (Or.inr ⟨l, h1, h3⟩)

theorem NormalForm.not_ab {d : Doc} (h : NormalForm d) : d.isAB = false := by
  rcases h with rfl | h | ⟨l, rfl, _, _⟩
  · rfl
  · exact h.2.2.2
  · rfl

theorem flatten_cons_default (d : Doc) (rest : List Doc)
    (h1 : d.isConcat = false) (h2 : d.isAB = false) (h3 : d ≠ .nil) :
    flattenConcatChildren (d :: rest) =
      (d :: (flattenConcatChildren rest).1, (flattenConcatChildren rest).2) := by
  cases d <;> simp_all [flattenConcatChildren, Doc.isConcat, Doc.isAB]

theorem flatten_cons_concat (l : List Doc) (rest : List Doc) :
    flattenConcatChildren (.concat l :: rest) =
      (l ++ (flattenConcatChildren rest).1, (flattenConcatChildren rest).2) := by
  simp [flattenConcatChildren]

theorem flatten_cons_ab (d : Doc) (rest : List Doc) :
    flattenConcatChildren (.alwaysBreak d :: rest) =
      (d :: (flattenConcatChildren rest).1, true) := by
  simp [flattenConcatChildren]

theorem flatten_cons_nil (rest : List Doc) :
    flattenConcatChildren (.nil :: rest) = flattenConcatChildren rest := by
  simp [flattenConcatChildren]

/-- If every child is in `NFish` shape, the `Concat.normalize` loop sets
no `propagate_broken` flag and collects only atoms. -/
theorem flatten_atoms : ∀ nds : List Doc, (∀ e ∈ nds, NFish e) →
    (flattenConcatChildren nds).2 = false ∧
      ∀ x ∈ (flattenConcatChildren nds).1, NormalAtom x := by
  intro nds h
  induction nds with
  | nil => simp [flattenConcatChildren]
  | cons d rest ih =>
    have hd := h d (by simp)
    have ihr := ih (fun e he => h e (List.mem_cons_of_mem _ he))
    rcases hd with rfl | hatom | ⟨l, rfl, hl⟩
    · rw [flatten_cons_nil]; exact ihr
    · rw [flatten_cons_default d rest hatom.2.2.1 hatom.2.2.2 hatom.2.1]
      refine ⟨ihr.1, ?_⟩
      intro x hx
      rcases List.mem_cons.mp hx with rfl | hx'
      · exact hatom
      · exact ihr.2 x hx'
    · rw [flatten_cons_concat]
      refine ⟨ihr.1, ?_⟩
      intro x hx
      rcases List.mem_append.mp hx with hx' | hx'
      · exact hl x hx'
      · exact ihr.2 x hx'

/-- On a list of atoms the `Concat.normalize` loop is the identity. -/
theorem flatten_id : ∀ l : List Doc, (∀ x ∈ l, NormalAtom x) →
    flattenConcatChildren l = (l, false) := by
  intro l h
  induction l with
  | nil => simp [flattenConcatChildren]
  | cons d rest ih =>
    have hd := h d (by simp)
    rw [flatten_cons_default d rest hd.2.2.1 hd.2.2.2 hd.2.1,
      ih (fun x hx => h x (List.mem_cons_of_mem _ hx))]

/-- Mapping normalization over a list of already-fixed docs is the
identity. -/
theorem normalizeList_id : ∀ l : List Doc, (∀ x ∈ l, normalizeDoc x = x) →
    normalizeList l = l := by
  intro l h
  induction l with
  | nil => rfl
  | cons d rest ih =>
    rw [normalizeList, h d (by simp), ih (fun x hx => h x (List.mem_cons_of_mem _ hx))]

/-- Any Doc in `NormalForm` shape is a fixed point of normalization. -/
theorem normalform_fixed {d : Doc} (h : NormalForm d) : normalizeDoc d = d := by
  rcases h with rfl | h | ⟨l, rfl, hlen, hl⟩
  · rfl
  · exact h.1
  · rcases l with _ | ⟨a, _ | ⟨b, t⟩⟩
    · simp at hlen
    · simp at hlen
    · rw [show normalizeDoc (.concat (a :: b :: t)) =
          (match flattenConcatChildren (normalizeList (a :: b :: t)) with
            | ([], _) => Doc.nil
            | ([d], false) => d
            | ([d], true) => Doc.alwaysBreak d
            | (l, false) => Doc.concat l
            | (l, true) => Doc.alwaysBreak (Doc.concat l)) from rfl,
        normalizeList_id _ (fun x hx => (hl x hx).1), flatten_id _ hl]

/-! ### Clause-level equations for `normalizeDoc` and guarded simplifications. -/

theorem normalizeDoc_concat_eq (ds : List Doc) :
    normalizeDoc (.concat ds) =
      (match flattenConcatChildren (normalizeList ds) with
        | ([], _) => Doc.nil
        | ([d], false) => d
        | ([d], true) => Doc.alwaysBreak d
        | (l, false) => Doc.concat l
        | (l, true) => Doc.alwaysBreak (Doc.concat l)) := rfl

theorem normalizeDoc_nest_eq (i : Int) (d : Doc) :
    normalizeDoc (.nest i d) =
      (match normalizeDoc d with
        | .alwaysBreak inner => Doc.alwaysBreak (.nest i inner)
        | nd => Doc.nest i nd) := rfl

theorem normalizeDoc_group_eq (d : Doc) :
    normalizeDoc (.group d) =
      (match normalizeDoc d with
        | .alwaysBreak inner => Doc.alwaysBreak inner
        | .nil => Doc.nil
        | nd => Doc.group nd) := rfl

theorem normalizeDoc_ab_eq (d : Doc) :
    normalizeDoc (.alwaysBreak d) =
      (match normalizeDoc d with
        | .alwaysBreak inner => Doc.alwaysBreak inner
        | nd => Doc.alwaysBreak nd) := rfl

theorem normalizeDoc_fill_eq (ds : List Doc) :
    normalizeDoc (.fill ds) =
      (match fillChildren ds with
        | ([], _) => Doc.nil
        | (l, false) => Doc.fill l
        | (l, true) => Doc.alwaysBreak (Doc.fill l)) := rfl

theorem normalizeDoc_nest_of_not_ab (i : Int) (d : Doc)
    (h : (normalizeDoc d).isAB = false) :
    normalizeDoc (.nest i d) = .nest i (normalizeDoc d) := by
  rw [normalizeDoc_nest_eq]
  cases hnd : normalizeDoc d <;> simp_all [Doc.isAB]

theorem normalizeDoc_group_of_not_ab_not_nil (d : Doc)
    (h1 : (normalizeDoc d).isAB = false) (h2 : normalizeDoc d ≠ .nil) :
    normalizeDoc (.group d) = .group (normalizeDoc d) := by
  rw [normalizeDoc_group_eq]
  cases hnd : normalizeDoc d <;> simp_all [Doc.isAB]

theorem normalizeDoc_group_of_nil (d : Doc) (h : normalizeDoc d = .nil) :
    normalizeDoc (.group d) = .nil := by
  rw [normalizeDoc_group_eq, h]

theorem normalizeDoc_group_of_ab (d x : Doc) (h : normalizeDoc d = .alwaysBreak x) :
    normalizeDoc (.group d) = .alwaysBreak x := by
  rw [normalizeDoc_group_eq, h]

theorem normalizeDoc_ab_of_not_ab (d : Doc) (h : (normalizeDoc d).isAB = false) :
    normalizeDoc (.alwaysBreak d) = .alwaysBreak (normalizeDoc d) := by
  rw [normalizeDoc_ab_eq]
  cases hnd : normalizeDoc d <;> simp_all [Doc.isAB]

/-- Normalizing an `AlwaysBreak` always yields an `AlwaysBreak`. -/
theorem normalizeDoc_ab_isAB (d : Doc) :
    (normalizeDoc (.alwaysBreak d)).isAB = true := by
  rw [normalizeDoc_ab_eq]
  cases hnd : normalizeDoc d <;> simp [Doc.isAB]

theorem noAB_isAB {d : Doc} (h : noAB d = true) : d.isAB = false := by
  cases d <;> simp_all [noAB, Doc.isAB]

theorem fillChildren_id : ∀ ds : List Doc,
    (∀ x ∈ ds, x.isAB = false ∧ x ≠ .nil) → fillChildren ds = (ds, false) := by
  intro ds h
  induction ds with
  | nil => rfl
  | cons d rest ih =>
    have hd := h d (by simp)
    have ihr := ih (fun x hx => h x (List.mem_cons_of_mem _ hx))
    cases d <;> simp_all [fillChildren, Doc.isAB]

theorem fillChildren_shape : ∀ ds : List Doc, noABList ds = true →
    (fillChildren ds).2 = false ∧
      ∀ x ∈ (fillChildren ds).1, x.isAB = false ∧ x ≠ .nil := by
  intro ds h
  induction ds with
  | nil => simp [fillChildren]
  | cons d rest ih =>
    have h1 : noAB d = true ∧ noABList rest = true := by
      simpa [noABList, Bool.and_eq_true] using h
    have ihr := ih h1.2
    have hdab := noAB_isAB h1.1
    cases d <;> simp_all [fillChildren, Doc.isAB]

mutual

/-- Normalizing an `AlwaysBreak`-free Doc yields a `NormalForm`. -/
theorem nf_normalize : ∀ d : Doc, noAB d = true → NormalForm (normalizeDoc d)
  | .text s, _ => by
    by_cases hs : s = ""
    · left; simp [normalizeDoc, hs]
    · right; left
      refine ⟨by simp [normalizeDoc, hs], by simp [normalizeDoc, hs], ?_, ?_⟩ <;>
        simp [normalizeDoc, hs, Doc.isConcat, Doc.isAB]
  | .nil, _ => Or.inl rfl
  | .hardline, _ => Or.inr (Or.inl ⟨rfl, by simp [normalizeDoc], rfl, rfl⟩)
  | .contextual fn, _ => Or.inr (Or.inl ⟨rfl, by simp [normalizeDoc], rfl, rfl⟩)
  | .flatChoice wb wf noa bn fn, _ => by
    cases noa with
    | false =>
      right; left
      refine ⟨?_, by simp [normalizeDoc], rfl, rfl⟩
      simp [normalizeDoc]
    | true =>
      right; left
      refine ⟨?_, by simp [normalizeDoc], rfl, rfl⟩
      simp [normalizeDoc]
  | .annotated d a, h => by
    have hd := nf_normalize d (by simpa [noAB] using h)
    have hfix := normalform_fixed hd
    rw [show normalizeDoc (.annotated d a) = .annotated (normalizeDoc d) a from rfl]
    right; left
    exact ⟨by rw [show normalizeDoc (.annotated (normalizeDoc d) a) =
        .annotated (normalizeDoc (normalizeDoc d)) a from rfl, hfix],
      by simp, rfl, rfl⟩
  | .nest i d, h => by
    have hd := nf_normalize d (by simpa [noAB] using h)
    have hab := hd.not_ab
    have hfix := normalform_fixed hd
    rw [normalizeDoc_nest_of_not_ab i d hab]
    right; left
    refine ⟨?_, by simp, rfl, rfl⟩
    rw [normalizeDoc_nest_eq]
    rw [hfix]
    cases hnd : normalizeDoc d <;> simp_all [Doc.isAB]
  | .group d, h => by
    have hd := nf_normalize d (by simpa [noAB] using h)
    have hab := hd.not_ab
    have hfix := normalform_fixed hd
    by_cases hnil : normalizeDoc d = .nil
    · rw [normalizeDoc_group_of_nil d hnil]; exact Or.inl rfl
    · rw [normalizeDoc_group_of_not_ab_not_nil d hab hnil]
      right; left
      refine ⟨?_, by simp, rfl, rfl⟩
      rw [normalizeDoc_group_eq, hfix]
      cases hnd : normalizeDoc d <;> simp_all [Doc.isAB]
  | .concat ds, h => by
    have hList : noABList ds = true := by simpa [noAB] using h
    have hnds := nf_normalizeList ds hList
    have hfa := flatten_atoms (normalizeList ds) (fun e he => (hnds e he).nfish)
    rw [normalizeDoc_concat_eq]
    rcases hp : flattenConcatChildren (normalizeList ds) with ⟨l, b⟩
    rw [hp] at hfa
    obtain ⟨hb, hatoms⟩ := hfa
    simp only at hb hatoms
    subst hb
    rcases l with _ | ⟨a, _ | ⟨a2, t⟩⟩
    · exact Or.inl rfl
    · exact Or.inr (Or.inl (hatoms a (by simp)))
    · exact Or.inr (Or.inr ⟨a :: a2 :: t, rfl, by simp, hatoms⟩)
  | .fill ds, h => by
    have hList : noABList ds = true := by simpa [noAB] using h
    have hsh := fillChildren_shape ds hList
    rw [normalizeDoc_fill_eq]
    rcases hp : fillChildren ds with ⟨l, b⟩
    rw [hp] at hsh
    obtain ⟨hb, hshape⟩ := hsh
    simp only at hb hshape
    subst hb
    rcases l with _ | ⟨a, t⟩
    · exact Or.inl rfl
    · right; left
      refine ⟨?_, by simp, rfl, rfl⟩
      rw [normalizeDoc_fill_eq, fillChildren_id (a :: t) hshape]

theorem nf_normalizeList :
    ∀ ds : List Doc, noABList ds = true → ∀ x ∈ normalizeList ds, NormalForm x
  | [], _ => by simp [normalizeList]
  | d :: rest, h => by
    have h1 : noAB d = true ∧ noABList rest = true := by
      simpa [noABList, Bool.and_eq_true] using h
    intro x hx
    rcases List.mem_cons.mp (by simpa [normalizeList] using hx) with rfl | hx'
    · exact nf_normalize d h1.1
    · exact nf_normalizeList rest h1.2 x hx'

end

mutual

/-- `eagerOnly` docs are in particular `AlwaysBreak`-free. -/
theorem eager_noAB : ∀ d : Doc, eagerOnly d = true → noAB d = true
  | .text _, _ => rfl
  | .nil, _ => rfl
  | .hardline, _ => rfl
  | .contextual _, _ => rfl
  | .alwaysBreak _, h => by simp [eagerOnly] at h
  | .fill _, h => by simp [eagerOnly] at h
  | .flatChoice _ _ _ _ _, h => by simp [eagerOnly] at h
  | .nest _ d, h => by
    simp only [noAB]
    exact eager_noAB d (by simpa [eagerOnly] using h)
  | .group d, h => by
    simp only [noAB]
    exact eager_noAB d (by simpa [eagerOnly] using h)
  | .annotated d _, h => by
    simp only [noAB]
    exact eager_noAB d (by simpa [eagerOnly] using h)
  | .concat ds, h => by
    simp only [noAB]
    exact eager_noAB_list ds (by simpa [eagerOnly] using h)

theorem eager_noAB_list : ∀ ds : List Doc, eagerOnlyList ds = true → noABList ds = true
  | [], _ => rfl
  | d :: rest, h => by
    have h1 : eagerOnly d = true ∧ eagerOnlyList rest = true := by
      simpa [eagerOnlyList, Bool.and_eq_true] using h
    simp only [noABList, Bool.and_eq_true]
    exact ⟨eager_noAB d h1.1, eager_noAB_list rest h1.2⟩

end

theorem hncList_eq_any : ∀ l : List Doc, hncList l = l.any hasNestedConcat := by
  intro l
  induction l with
  | nil => rfl
  | cons d rest ih => simp [hncList, ih]

theorem hnc_concat_of (l : List Doc)
    (h : ∀ x ∈ l, x.isConcat = false ∧ hasNestedConcat x = false) :
    hasNestedConcat (.concat l) = false := by
  simp only [hasNestedConcat, hncList_eq_any, Bool.or_eq_false_iff, List.any_eq_false]
  exact ⟨fun x hx => by simp [(h x hx).1], fun x hx => by simp [(h x hx).2]⟩

/-- The `Concat.normalize` loop keeps no immediate `Concat` children and
no nested-`Concat` material, provided the (already normalized) children
are not `AlwaysBreak`s and have no nested `Concat`s themselves. -/
theorem flatten_nc : ∀ nds : List Doc,
    (∀ e ∈ nds, e.isAB = false ∧ hasNestedConcat e = false) →
    ∀ x ∈ (flattenConcatChildren nds).1,
      x.isConcat = false ∧ hasNestedConcat x = false := by
  intro nds h
  induction nds with
  | nil => simp [flattenConcatChildren]
  | cons d rest ih =>
    have hd := h d (by simp)
    have ihr := ih (fun e he => h e (List.mem_cons_of_mem _ he))
    intro x hx
    cases d
    case concat li =>
      rw [flatten_cons_concat] at hx
      rcases List.mem_append.mp hx with hx' | hx'
      · have hcc : li.any Doc.isConcat = false ∧ hncList li = false := by
          simpa [hasNestedConcat, Bool.or_eq_false_iff] using hd.2
        have h1 := List.any_eq_false.mp hcc.1 x hx'
        have h2 := List.any_eq_false.mp (by rw [← hncList_eq_any]; exact hcc.2) x hx'
        exact ⟨by simpa using h1, by simpa using h2⟩
      · exact ihr x hx'
    case alwaysBreak inner => exact absurd hd.1 (by simp [Doc.isAB])
    case nil => rw [flatten_cons_nil] at hx; exact ihr x hx
    all_goals (
      rcases List.mem_cons.mp hx with rfl | hx';
      exacts [⟨rfl, hd.2⟩, ihr x hx'])

mutual

/-- Normalizing a Doc without `AlwaysBreak`/`Fill`/`FlatChoice` nodes
leaves no `Concat` with an immediate `Concat` child. -/
theorem hnc_normalize :
    ∀ d : Doc, eagerOnly d = true → hasNestedConcat (normalizeDoc d) = false
  | .text s, _ => by
    by_cases hs : s = "" <;> simp [normalizeDoc, hs, hasNestedConcat]
  | .nil, _ => rfl
  | .hardline, _ => rfl
  | .contextual _, _ => rfl
  | .alwaysBreak _, h => by simp [eagerOnly] at h
  | .fill _, h => by simp [eagerOnly] at h
  | .flatChoice _ _ _ _ _, h => by simp [eagerOnly] at h
  | .nest i d, h => by
    have he : eagerOnly d = true := by simpa [eagerOnly] using h
    have hd := hnc_normalize d he
    have hab : (normalizeDoc d).isAB = false :=
      (nf_normalize d (eager_noAB d he)).not_ab
    rw [normalizeDoc_nest_of_not_ab i d hab]
    simpa [hasNestedConcat] using hd
  | .group d, h => by
    have he : eagerOnly d = true := by simpa [eagerOnly] using h
    have hd := hnc_normalize d he
    have hab : (normalizeDoc d).isAB = false :=
      (nf_normalize d (eager_noAB d he)).not_ab
    by_cases hnil : normalizeDoc d = .nil
    · rw [normalizeDoc_group_of_nil d hnil]; rfl
    · rw [normalizeDoc_group_of_not_ab_not_nil d hab hnil]
      simpa [hasNestedConcat] using hd
  | .annotated d a, h => by
    have he : eagerOnly d = true := by simpa [eagerOnly] using h
    have hd := hnc_normalize d he
    rw [show normalizeDoc (.annotated d a) = .annotated (normalizeDoc d) a from rfl]
    simpa [hasNestedConcat] using hd
  | .concat ds, h => by
    have hList : eagerOnlyList ds = true := by simpa [eagerOnly] using h
    have hmem := hnc_normalizeList ds hList
    have hnf := nf_normalizeList ds (eager_noAB_list ds hList)
    have hFlat := flatten_nc (normalizeList ds)
      (fun e he => ⟨(hnf e he).not_ab, hmem e he⟩)
    rw [normalizeDoc_concat_eq]
    rcases hp : flattenConcatChildren (normalizeList ds) with ⟨l, b⟩
    rw [hp] at hFlat
    simp only at hFlat
    rcases l with _ | ⟨a, _ | ⟨a2, t⟩⟩ <;> cases b
    · rfl
    · rfl
    · exact (hFlat a (by simp)).2
    · simpa [hasNestedConcat] using (hFlat a (by simp)).2
    · exact hnc_concat_of _ hFlat
    · simpa [hasNestedConcat] using hnc_concat_of _ hFlat

theorem hnc_normalizeList :
    ∀ ds : List Doc, eagerOnlyList ds = true →
      ∀ x ∈ normalizeList ds, hasNestedConcat x = false
  | [], _ => by simp [normalizeList]
  | d :: rest, h => by
    have h1 : eagerOnly d = true ∧ eagerOnlyList rest = true := by
      simpa [eagerOnlyList, Bool.and_eq_true] using h
    intro x hx
    rcases List.mem_cons.mp (by simpa [normalizeList] using hx) with rfl | hx'
    · exact hnc_normalize d h1.1
    · exact hnc_normalizeList rest h1.2 x hx'

end

theorem isAB_ex {d : Doc} (h : d.isAB = true) : ∃ x, d = .alwaysBreak x := by
  cases d <;> simp_all [Doc.isAB]

/-- If some (already normalized) child of a `Concat` is an `AlwaysBreak`,
the `Concat.normalize` loop sets `propagate_broken` and collects a
nonempty list (the `AlwaysBreak` child's payload is always appended). -/
theorem flatten_mem_ab : ∀ ds : List Doc, (∃ e ∈ ds, e.isAB = true) →
    (flattenConcatChildren ds).2 = true ∧ (flattenConcatChildren ds).1 ≠ [] := by
  intro ds h
  induction ds with
  | nil => simp at h
  | cons d rest ih =>
    rcases h with ⟨e, he, hab⟩
    rcases List.mem_cons.mp he with rfl | he'
    · obtain ⟨x, rfl⟩ := isAB_ex hab
      rw [flatten_cons_ab]
      exact ⟨rfl, List.cons_ne_nil _ _⟩
    · have ihr := ih ⟨e, he', hab⟩
      cases d
      case concat li =>
        rw [flatten_cons_concat]
        exact ⟨ihr.1, fun hc => ihr.2 (List.append_eq_nil.mp hc).2⟩
      case alwaysBreak x =>
        rw [flatten_cons_ab]
        exact ⟨rfl, List.cons_ne_nil _ _⟩
      case nil => rw [flatten_cons_nil]; exact ihr
      all_goals exact ⟨ihr.1, List.cons_ne_nil _ _⟩

/-- Normalizing a `Concat` with an `AlwaysBreak` child always hoists:
the result is an `AlwaysBreak`. -/
theorem concat_with_ab_member_hoists (ds : List Doc)
    (h : ∃ e ∈ normalizeList ds, e.isAB = true) :
    (normalizeDoc (.concat ds)).isAB = true := by
  have hfl := flatten_mem_ab _ h
  rw [normalizeDoc_concat_eq]
  rcases hp : flattenConcatChildren (normalizeList ds) with ⟨l, bb⟩
  rw [hp] at hfl
  simp only at hfl
  obtain ⟨hbb, hne⟩ := hfl
  subst hbb
  rcases l with _ | ⟨x, _ | ⟨y, t⟩⟩
  · exact absurd rfl hne
  · rfl
  · rfl

/-- C3 amended development: the two properties proved below are packaged
into the claim theorem at the end of the file. -/
theorem normalize_fix_of_noAB (d : Doc) (h : noAB d = true) :
    normalizeDoc (normalizeDoc d) = normalizeDoc d :=
  normalform_fixed (nf_normalize d h)

/-- C6 development: normalizing `Group(Concat([a, AlwaysBreak(b), c]))`
always hoists the break over the group. -/
theorem group_concat_ab_hoists (a b c : Doc) :
    (normalizeDoc (.group (.concat [a, .alwaysBreak b, c]))).isAB = true := by
  have hmem : ∃ e ∈ normalizeList [a, .alwaysBreak b, c], e.isAB = true := by
    refine ⟨normalizeDoc (.alwaysBreak b), ?_, normalizeDoc_ab_isAB b⟩
    simp [normalizeList]
  have hc := concat_with_ab_member_hoists _ hmem
  obtain ⟨x, hx⟩ := isAB_ex hc
  rw [normalizeDoc_group_of_ab _ _ hx]
  rfl

/-! ### The layout engine (`layout.py`)

The Python engine is a stack-and-loop machine over triples
`(indent, mode, doc)`.  The `while` loops can be driven unboundedly by
`Contextual` callbacks, so all loops take explicit fuel and return
`none`/`false` when it runs out.  Python's float `ribbon_frac` (and the
`round`-based recomputation of `ribbon_width` inside the predicates) is
replaced by passing the computed integer `ribbon_width` itself. -/

/-- `layout.py`: `BREAK_MODE = 0`, `FLAT_MODE = 1`. -/
inductive Mode where
  | brk
  | flat
deriving DecidableEq, Repr

/-- `sdoctypes.py`: the simple-doc stream.  `best_layout` yields Python
strings directly for text; we use `stext`. -/
inductive SDoc where
  | stext (s : String)
  | sline (indent : Int)
  | spush (a : Ann)
  | spop (a : Ann)
deriving DecidableEq, Repr

/-- A work-stack entry: a Doc, or the synthetic `SAnnotationPop`
sentinel that `best_layout` pushes onto its triple stack. -/
inductive SEntry where
  | doc (d : Doc)
  | pop (a : Ann)

/-- An `(indent, mode, doc)` triple of the work stack. -/
structure Triple where
  indent : Int
  mode : Mode
  entry : SEntry

/-- Value returned by the `FlatChoice.when_broken` property
(`doctypes.py` lines 144-149).  The cache write-back is not threaded
through the layout state: it only changes *when* a branch gets
normalized, never which branch is chosen. -/
def fcWhenBroken (wb wf : Doc) (noa bn fn : Bool) : Doc :=
  (accessWhenBroken ⟨wb, wf, noa, bn, fn⟩).1

/-- Value returned by the `FlatChoice.when_flat` property
(`doctypes.py` lines 151-156). -/
def fcWhenFlat (wb wf : Doc) (noa bn fn : Bool) : Doc :=
  (accessWhenFlat ⟨wb, wf, noa, bn, fn⟩).1

/-- The loop of `fast_fitting_predicate` (`layout.py` lines 45-121):
one-line lookahead; `True` on `HardLine` or an emptied stack, `False`
on overflow or `AlwaysBreak` (the `triplestack.append` after that
`return False` is dead code and is not modelled).  `minNesting` is
accepted and ignored, as in the source.  The current column passed to a
`Contextual` is `maxWidth - charsLeft`. -/
def fastFitsLoop (pageWidth ribbonWidth minNesting maxWidth : Int) :
    Nat → Int → List Triple → Bool
  | 0, _, _ => false
  | fuel + 1, charsLeft, stack =>
    if charsLeft < 0 then false
    else
      match stack with
      | [] => true
      | ⟨i, m, e⟩ :: rest =>
        match e with
        | .pop _ => fastFitsLoop pageWidth ribbonWidth minNesting maxWidth fuel charsLeft rest
        | .doc d =>
          match d with
          | .nil => fastFitsLoop pageWidth ribbonWidth minNesting maxWidth fuel charsLeft rest
          | .text s =>
            fastFitsLoop pageWidth ribbonWidth minNesting maxWidth fuel
              (charsLeft - s.length) rest
          | .concat ds =>
            fastFitsLoop pageWidth ribbonWidth minNesting maxWidth fuel charsLeft
              (ds.map (fun c => ⟨i, m, .doc c⟩) ++ rest)
          | .annotated d2 _ =>
            fastFitsLoop pageWidth ribbonWidth minNesting maxWidth fuel charsLeft
              (⟨i, m, .doc d2⟩ :: rest)
          | .fill ds =>
            fastFitsLoop pageWidth ribbonWidth minNesting maxWidth fuel charsLeft
              (ds.map (fun c => ⟨i, m, .doc c⟩) ++ rest)
          | .nest j d2 =>
            fastFitsLoop pageWidth ribbonWidth minNesting maxWidth fuel charsLeft
              (⟨i + j, m, .doc d2⟩ :: rest)
          | .alwaysBreak _ => false
          | .hardline => true
          | .flatChoice wb wf noa bn fn =>
            match m with
            | .flat =>
              fastFitsLoop pageWidth ribbonWidth minNesting maxWidth fuel charsLeft
                (⟨i, m, .doc (fcWhenFlat wb wf noa bn fn)⟩ :: rest)
            | .brk =>
              fastFitsLoop pageWidth ribbonWidth minNesting maxWidth fuel charsLeft
                (⟨i, m, .doc (fcWhenBroken wb wf noa bn fn)⟩ :: rest)
          | .group d2 =>
            fastFitsLoop pageWidth ribbonWidth minNesting maxWidth fuel charsLeft
              (⟨i, .flat, .doc d2⟩ :: rest)
          | .contextual f =>
            fastFitsLoop pageWidth ribbonWidth minNesting maxWidth fuel charsLeft
              (⟨i, m, .doc (normalizeDoc
                (f i (maxWidth - charsLeft) pageWidth ribbonWidth))⟩ :: rest)

/-- The loop of `smart_fitting_predicate` (`layout.py` lines 124-208):
multi-line lookahead.  Only the `HardLine` case differs from the fast
predicate: if the pending indentation strictly exceeds
`min_nesting_level`, reset the budget to `page_width - indent` and keep
scanning; otherwise return `True`. -/
def smartFitsLoop (pageWidth ribbonWidth minNesting maxWidth : Int) :
    Nat → Int → List Triple → Bool
  | 0, _, _ => false
  | fuel + 1, charsLeft, stack =>
    if charsLeft < 0 then false
    else
      match stack with
      | [] => true
      | ⟨i, m, e⟩ :: rest =>
        match e with
        | .pop _ => smartFitsLoop pageWidth ribbonWidth minNesting maxWidth fuel charsLeft rest
        | .doc d =>
          match d with
          | .nil => smartFitsLoop pageWidth ribbonWidth minNesting maxWidth fuel charsLeft rest
          | .text s =>
            smartFitsLoop pageWidth ribbonWidth minNesting maxWidth fuel
              (charsLeft - s.length) rest
          | .concat ds =>
            smartFitsLoop pageWidth ribbonWidth minNesting maxWidth fuel charsLeft
              (ds.map (fun c => ⟨i, m, .doc c⟩) ++ rest)
          | .annotated d2 _ =>
            smartFitsLoop pageWidth ribbonWidth minNesting maxWidth fuel charsLeft
              (⟨i, m, .doc d2⟩ :: rest)
          | .fill ds =>
            smartFitsLoop pageWidth ribbonWidth minNesting maxWidth fuel charsLeft
              (ds.map (fun c => ⟨i, m, .doc c⟩) ++ rest)
          | .nest j d2 =>
            smartFitsLoop pageWidth ribbonWidth minNesting maxWidth fuel charsLeft
              (⟨i + j, m, .doc d2⟩ :: rest)
          | .alwaysBreak _ => false
          | .hardline =>
            if i > minNesting then
              smartFitsLoop pageWidth ribbonWidth minNesting maxWidth fuel
                (pageWidth - i) rest
            else true
          | .flatChoice wb wf noa bn fn =>
            match m with
            | .flat =>
              smartFitsLoop pageWidth ribbonWidth minNesting maxWidth fuel charsLeft
                (⟨i, m, .doc (fcWhenFlat wb wf noa bn fn)⟩ :: rest)
            | .brk =>
              smartFitsLoop pageWidth ribbonWidth minNesting maxWidth fuel charsLeft
                (⟨i, m, .doc (fcWhenBroken wb wf noa bn fn)⟩ :: rest)
          | .group d2 =>
            smartFitsLoop pageWidth ribbonWidth minNesting maxWidth fuel charsLeft
              (⟨i, .flat, .doc d2⟩ :: rest)
          | .contextual f =>
            smartFitsLoop pageWidth ribbonWidth minNesting maxWidth fuel charsLeft
              (⟨i, m, .doc (normalizeDoc
                (f i (maxWidth - charsLeft) pageWidth ribbonWidth))⟩ :: rest)

/-- A fitting predicate as called by `best_layout`:
arguments `(page_width, ribbon_width, min_nesting_level, max_width,
fuel, triplestack)`; `chars_left` starts at `max_width`. -/
def FitPred : Type :=
  Int → Int → Int → Int → Nat → List Triple → Bool

/-- `fast_fitting_predicate` packaged as a `FitPred`. -/
def fastFitPred : FitPred :=
  fun pageWidth ribbonWidth minNesting maxWidth fuel stack =>
    fastFitsLoop pageWidth ribbonWidth minNesting maxWidth fuel maxWidth stack

/-- `smart_fitting_predicate` packaged as a `FitPred`. -/
def smartFitPred : FitPred :=
  fun pageWidth ribbonWidth minNesting maxWidth fuel stack =>
    smartFitsLoop pageWidth ribbonWidth minNesting maxWidth fuel maxWidth stack

/-- The loop of `best_layout` (`layout.py` lines 227-378).  Each step
pops a triple; emission is modelled by consing onto the recursive
result.  The `Group` case copies the stack, pushes the grouped doc in
flat mode, computes `min_nesting_level = min(outcol, indent)` and the
available width `min(width - outcol, indent + ribbon_width - outcol)`,
and asks the fitting predicate; the `Fill` case follows lines 301-372
and always uses the *fast* predicate, as in the source. -/
def bestLayoutLoop (fits : FitPred) (width ribbonWidth : Int) :
    Nat → Int → List Triple → Option (List SDoc)
  | 0, _, _ => none
  | fuel + 1, outcol, stack =>
    match stack with
    | [] => some []
    | ⟨i, m, e⟩ :: rest =>
      match e with
      | .pop a =>
        (bestLayoutLoop fits width ribbonWidth fuel outcol rest).map (SDoc.spop a :: ·)
      | .doc d =>
        match d with
        | .nil => bestLayoutLoop fits width ribbonWidth fuel outcol rest
        | .hardline =>
          (bestLayoutLoop fits width ribbonWidth fuel i rest).map (SDoc.sline i :: ·)
        | .text s =>
          (bestLayoutLoop fits width ribbonWidth fuel (outcol + s.length) rest).map
            (SDoc.stext s :: ·)
        | .concat ds =>
          bestLayoutLoop fits width ribbonWidth fuel outcol
            (ds.map (fun c => ⟨i, m, .doc c⟩) ++ rest)
        | .contextual f =>
          bestLayoutLoop fits width ribbonWidth fuel outcol
            (⟨i, m, .doc (normalizeDoc (f i outcol width ribbonWidth))⟩ :: rest)
        | .annotated d2 a =>
          (bestLayoutLoop fits width ribbonWidth fuel outcol
            (⟨i, m, .doc d2⟩ :: ⟨i, m, .pop a⟩ :: rest)).map (SDoc.spush a :: ·)
        | .flatChoice wb wf noa bn fn =>
          match m with
          | .brk =>
            bestLayoutLoop fits width ribbonWidth fuel outcol
              (⟨i, m, .doc (fcWhenBroken wb wf noa bn fn)⟩ :: rest)
          | .flat =>
            bestLayoutLoop fits width ribbonWidth fuel outcol
              (⟨i, m, .doc (fcWhenFlat wb wf noa bn fn)⟩ :: rest)
        | .nest j d2 =>
          bestLayoutLoop fits width ribbonWidth fuel outcol (⟨i + j, m, .doc d2⟩ :: rest)
        | .group d2 =>
          if fits width ribbonWidth (min outcol i)
              (min (width - outcol) (i + ribbonWidth - outcol)) fuel
              (⟨i, .flat, .doc d2⟩ :: rest) then
            bestLayoutLoop fits width ribbonWidth fuel outcol (⟨i, .flat, .doc d2⟩ :: rest)
          else
            bestLayoutLoop fits width ribbonWidth fuel outcol (⟨i, .brk, .doc d2⟩ :: rest)
        | .alwaysBreak d2 =>
          bestLayoutLoop fits width ribbonWidth fuel outcol (⟨i, .brk, .doc d2⟩ :: rest)
        | .fill ds =>
          match ds with
          | [] => bestLayoutLoop fits width ribbonWidth fuel outcol rest
          | first :: ds1 =>
            let doesFit := fastFitsLoop width ribbonWidth (min outcol i)
              (min (width - outcol) (i + ribbonWidth - outcol)) fuel
              (min (width - outcol) (i + ribbonWidth - outcol)) [⟨i, .flat, .doc first⟩]
            match ds1 with
            | [] =>
              if doesFit then
                bestLayoutLoop fits width ribbonWidth fuel outcol
                  (⟨i, .flat, .doc first⟩ :: rest)
              else
                bestLayoutLoop fits width ribbonWidth fuel outcol
                  (⟨i, .brk, .doc first⟩ :: rest)
            | ws :: remaining =>
              match remaining with
              | [] =>
                if doesFit then
                  bestLayoutLoop fits width ribbonWidth fuel outcol
                    (⟨i, .flat, .doc first⟩ :: ⟨i, .flat, .doc ws⟩ :: rest)
                else
                  bestLayoutLoop fits width ribbonWidth fuel outcol
                    (⟨i, .brk, .doc first⟩ :: ⟨i, .brk, .doc ws⟩ :: rest)
              | _ :: _ =>
                if fastFitsLoop width ribbonWidth (min outcol i)
                    (min (width - outcol) (i + ribbonWidth - outcol)) fuel
                    (min (width - outcol) (i + ribbonWidth - outcol))
                    [⟨i, .flat, .doc (.concat [first, ws])⟩] then
                  bestLayoutLoop fits width ribbonWidth fuel outcol
                    (⟨i, .flat, .doc first⟩ :: ⟨i, .flat, .doc ws⟩ ::
                      ⟨i, m, .doc (.fill remaining)⟩ :: rest)
                else if doesFit then
                  bestLayoutLoop fits width ribbonWidth fuel outcol
                    (⟨i, .flat, .doc first⟩ :: ⟨i, .brk, .doc ws⟩ ::
                      ⟨i, m, .doc (.fill remaining)⟩ :: rest)
                else
                  bestLayoutLoop fits width ribbonWidth fuel outcol
                    (⟨i, .brk, .doc first⟩ :: ⟨i, .brk, .doc ws⟩ ::
                      ⟨i, m, .doc (.fill remaining)⟩ :: rest)

/-- `best_layout` (`layout.py` lines 211-225): normalize the root, clamp
the ribbon width to `[0, width]`, and start the loop on the single
triple `(outcol, mode, normalized)`. -/
def bestLayout (fits : FitPred) (doc : Doc) (width ribbonWidth : Int)
    (fuel : Nat) (outcol : Int) (m : Mode) : Option (List SDoc) :=
  bestLayoutLoop fits width (max 0 (min width ribbonWidth)) fuel outcol
    [⟨outcol, m, .doc (normalizeDoc doc)⟩]

/-- `layout_smart` (`layout.py` lines 381-387): `best_layout` with the
smart fitting predicate, starting at column 0 in break mode. -/
def layout_smart (doc : Doc) (width ribbonWidth : Int) (fuel : Nat) :
    Option (List SDoc) :=
  bestLayout smartFitPred doc width ribbonWidth fuel 0 .brk

/-! ### Balance and nesting of annotation markers in the SDoc stream. -/

/-- Process an SDoc stream left to right, maintaining the stack of open
annotations.  A pop must match the innermost open annotation; the result
is `none` on a mismatched or unmatched pop, and `some` of the remaining
open annotations otherwise. -/
def annStack : List SDoc → List Ann → Option (List Ann)
  | [], s => some s
  | .spush a :: rest, s => annStack rest (a :: s)
  | .spop a :: rest, s =>
    match s with
    | [] => none
    | b :: s' => if a = b then annStack rest s' else none
  | .stext _ :: rest, s => annStack rest s
  | .sline _ :: rest, s => annStack rest s

/-- The annotations of the `SAnnotationPop` sentinels on the work stack,
topmost first. -/
def pendingPops : List Triple → List Ann
  | [] => []
  | ⟨_, _, .pop a⟩ :: rest => a :: pendingPops rest
  | ⟨_, _, .doc _⟩ :: rest => pendingPops rest

theorem pendingPops_doc_map_append (i : Int) (m : Mode) (ds : List Doc)
    (rest : List Triple) :
    pendingPops (ds.map (fun c => ⟨i, m, .doc c⟩) ++ rest) = pendingPops rest := by
  induction ds with
  | nil => rfl
  | cons d ds ih => simpa [pendingPops] using ih

/-- Invariant of the `best_layout` loop: if the loop completes, the
emitted stream closes exactly the annotations whose pop sentinels are
pending on the work stack, innermost first, and closes them in that
order. -/
theorem bestLayoutLoop_annStack (fits : FitPred) (W R : Int) :
    ∀ (fuel : Nat) (outcol : Int) (stack : List Triple) (out : List SDoc),
      bestLayoutLoop fits W R fuel outcol stack = some out →
      annStack out (pendingPops stack) = some []
  | 0, outcol, stack, out, h => by simp [bestLayoutLoop] at h
  | fuel + 1, outcol, [], out, h => by
    have hout : out = [] := by
      have : (some [] : Option (List SDoc)) = some out := h
      simpa using this.symm
    subst hout; rfl
  | fuel + 1, outcol, ⟨i, m, .pop a⟩ :: rest, out, h => by
    rcases Option.map_eq_some'.mp h with ⟨out', hout', rfl⟩
    have ih := bestLayoutLoop_annStack fits W R fuel outcol rest out' hout'
    show annStack (SDoc.spop a :: out') (a :: pendingPops rest) = some []
    simpa [annStack] using ih
  | fuel + 1, outcol, ⟨i, m, .doc d⟩ :: rest, out, h => by
    cases d with
    | nil => exact bestLayoutLoop_annStack fits W R fuel outcol rest out h
    | hardline =>
      rcases Option.map_eq_some'.mp h with ⟨out', hout', rfl⟩
      have ih := bestLayoutLoop_annStack fits W R fuel i rest out' hout'
      simpa [annStack, pendingPops] using ih
    | text s =>
      rcases Option.map_eq_some'.mp h with ⟨out', hout', rfl⟩
      have ih := bestLayoutLoop_annStack fits W R fuel (outcol + s.length) rest out' hout'
      simpa [annStack, pendingPops] using ih
    | concat ds =>
      have ih := bestLayoutLoop_annStack fits W R fuel outcol
        (ds.map (fun c => Triple.mk i m (.doc c)) ++ rest) out h
      rwa [pendingPops_doc_map_append] at ih
    | contextual f =>
      exact bestLayoutLoop_annStack fits W R fuel outcol
        (⟨i, m, .doc (normalizeDoc (f i outcol W R))⟩ :: rest) out h
    | annotated d2 a =>
      rcases Option.map_eq_some'.mp h with ⟨out', hout', rfl⟩
      have ih := bestLayoutLoop_annStack fits W R fuel outcol
        (⟨i, m, .doc d2⟩ :: ⟨i, m, .pop a⟩ :: rest) out' hout'
      simpa [annStack, pendingPops] using ih
    | flatChoice wb wf noa bn fn =>
      cases m with
      | brk =>
        exact bestLayoutLoop_annStack fits W R fuel outcol
          (⟨i, .brk, .doc (fcWhenBroken wb wf noa bn fn)⟩ :: rest) out h
      | flat =>
        exact bestLayoutLoop_annStack fits W R fuel outcol
          (⟨i, .flat, .doc (fcWhenFlat wb wf noa bn fn)⟩ :: rest) out h
    | nest j d2 =>
      exact bestLayoutLoop_annStack fits W R fuel outcol (⟨i + j, m, .doc d2⟩ :: rest) out h
    | group d2 =>
      simp only [bestLayoutLoop] at h
      split at h
      · exact bestLayoutLoop_annStack fits W R fuel outcol (⟨i, .flat, .doc d2⟩ :: rest) out h
      · exact bestLayoutLoop_annStack fits W R fuel outcol (⟨i, .brk, .doc d2⟩ :: rest) out h
    | alwaysBreak d2 =>
      exact bestLayoutLoop_annStack fits W R fuel outcol (⟨i, .brk, .doc d2⟩ :: rest) out h
    | fill ds =>
      rcases ds with _ | ⟨first, _ | ⟨ws, _ | ⟨r1, rtail⟩⟩⟩
      · exact bestLayoutLoop_annStack fits W R fuel outcol rest out h
      · simp only [bestLayoutLoop] at h
        split at h
        · exact bestLayoutLoop_annStack fits W R fuel outcol
            (⟨i, .flat, .doc first⟩ :: rest) out h
        · exact bestLayoutLoop_annStack fits W R fuel outcol
            (⟨i, .brk, .doc first⟩ :: rest) out h
      · simp only [bestLayoutLoop] at h
        split at h
        · exact bestLayoutLoop_annStack fits W R fuel outcol
            (⟨i, .flat, .doc first⟩ :: ⟨i, .flat, .doc ws⟩ :: rest) out h
        · exact bestLayoutLoop_annStack fits W R fuel outcol
            (⟨i, .brk, .doc first⟩ :: ⟨i, .brk, .doc ws⟩ :: rest) out h
      · simp only [bestLayoutLoop] at h
        split at h
        · exact bestLayoutLoop_annStack fits W R fuel outcol
            (⟨i, .flat, .doc first⟩ :: ⟨i, .flat, .doc ws⟩ ::
              ⟨i, m, .doc (.fill (r1 :: rtail))⟩ :: rest) out h
        · split at h
          · exact bestLayoutLoop_annStack fits W R fuel outcol
              (⟨i, .flat, .doc first⟩ :: ⟨i, .brk, .doc ws⟩ ::
                ⟨i, m, .doc (.fill (r1 :: rtail))⟩ :: rest) out h
          · exact bestLayoutLoop_annStack fits W R fuel outcol
              (⟨i, .brk, .doc first⟩ :: ⟨i, .brk, .doc ws⟩ ::
                ⟨i, m, .doc (.fill (r1 :: rtail))⟩ :: rest) out h

/-- **C5.** In the smart fitting predicate, for every scan state that
pops a `HardLine` (remaining budget nonnegative, so the loop is still
running): if the `HardLine`'s indentation strictly exceeds
`min_nesting_level`, instantiated here as `min(column, group indent)`,
the remaining budget is reset to `page_width - indent` and scanning
continues with the rest of the stack; otherwise the predicate returns
`true`.  The second conjunct records the computation of
`min_nesting_level` at the enclosing `Group`: the `Group` case of
`best_layout` consults the predicate with
`min_nesting_level = min(outcol, indent)` and available width
`min(width - outcol, indent + ribbon_width - outcol)`. -/
theorem smart_fitting_hardline (W R col gi maxW : Int) (fuel : Nat)
    (charsLeft : Int) (i : Int) (m : Mode) (rest : List Triple)
    (h : 0 ≤ charsLeft) :
    (smartFitsLoop W R (min col gi) maxW (fuel + 1) charsLeft
        (⟨i, m, .doc .hardline⟩ :: rest) =
      if i > min col gi then
        smartFitsLoop W R (min col gi) maxW fuel (W - i) rest
      else true) ∧
    (∀ (fits : FitPred) (d2 : Doc) (outcol : Int),
      bestLayoutLoop fits W R (fuel + 1) outcol
          (⟨i, m, .doc (.group d2)⟩ :: rest) =
        if fits W R (min outcol i) (min (W - outcol) (i + R - outcol)) fuel
            (⟨i, .flat, .doc d2⟩ :: rest) then
          bestLayoutLoop fits W R fuel outcol (⟨i, .flat, .doc d2⟩ :: rest)
        else
          bestLayoutLoop fits W R fuel outcol (⟨i, .brk, .doc d2⟩ :: rest)) := by
  constructor
  · show (if charsLeft < 0 then false
      else if i > min col gi then
        smartFitsLoop W R (min col gi) maxW fuel (W - i) rest
      else true) = _
    rw [if_neg (not_lt.mpr h)]
  · intro fits d2 outcol
    rfl

/-- Witness for `smart_fitting_hardline` at a concrete scan state
(page width 10, column 4, group indent 2, hardline indent 5 > 2). -/
theorem smart_fitting_hardline_witness :
    (0 : Int) ≤ 3 ∧
    ((smartFitsLoop 10 9 (min 4 2) 10 (7 + 1) 3
        (⟨5, .brk, .doc .hardline⟩ :: []) =
      if 5 > min 4 2 then smartFitsLoop 10 9 (min 4 2) 10 7 (10 - 5) []
      else true) ∧
    (∀ (fits : FitPred) (d2 : Doc) (outcol : Int),
      bestLayoutLoop fits 10 9 (7 + 1) outcol
          (⟨5, .brk, .doc (.group d2)⟩ :: []) =
        if fits 10 9 (min outcol 5) (min (10 - outcol) (5 + 9 - outcol)) 7
            (⟨5, .flat, .doc d2⟩ :: []) then
          bestLayoutLoop fits 10 9 7 outcol (⟨5, .flat, .doc d2⟩ :: [])
        else
          bestLayoutLoop fits 10 9 7 outcol (⟨5, .brk, .doc d2⟩ :: []))) :=
  ⟨by norm_num, smart_fitting_hardline 10 9 4 2 10 7 3 5 .brk [] (by norm_num)⟩

/-- **C9.** For every Doc, fitting predicate and fuel: if the layout
engine runs to completion, the emitted SDoc stream has balanced
`SAnnotationPush`/`SAnnotationPop` markers — every push is closed by a
pop carrying an equal annotation — and they are properly nested: at
every point of the stream the open annotations close innermost-first,
which is exactly what the `annStack` checker verifies. -/
theorem sdoc_stream_push_pop_balanced (fits : FitPred) (doc : Doc)
    (width ribbonWidth : Int) (fuel : Nat) (outcol : Int) (m : Mode)
    (out : List SDoc)
    (h : bestLayout fits doc width ribbonWidth fuel outcol m = some out) :
    annStack out [] = some [] := by
  have hmain := bestLayoutLoop_annStack fits width (max 0 (min width ribbonWidth))
    fuel outcol [⟨outcol, m, .doc (normalizeDoc doc)⟩] out h
  simpa [pendingPops] using hmain

/-- A concrete Doc with nested annotations, for the C9 witness. -/
def exC9Doc : Doc :=
  .group (.annotated (.concat [.text "a", LINE,
    .annotated (.text "b") (.token .punctuation)]) (.token .operator))

/-- The stream the smart layout produces for `exC9Doc` at width 80. -/
def exC9Out : List SDoc :=
  [.spush (.token .operator), .stext "a", .stext " ",
   .spush (.token .punctuation), .stext "b",
   .spop (.token .punctuation), .spop (.token .operator)]

/-- Witness for `sdoc_stream_push_pop_balanced` on `exC9Doc`. -/
theorem sdoc_stream_push_pop_balanced_witness :
    bestLayout smartFitPred exC9Doc 80 72 30 0 .brk = some exC9Out ∧
      annStack exC9Out [] = some [] :=
  ⟨by decide,
   sdoc_stream_push_pop_balanced smartFitPred exC9Doc 80 72 30 0 .brk exC9Out (by decide)⟩

/-! ### Claim-level results about normalization (C3, C4, C6). -/

/-- The Doc `Concat([AlwaysBreak(Concat(['a', 'b'])), 'c'])`: hoisting
the child `AlwaysBreak` appends its payload un-flattened. -/
def c3CounterDoc : Doc :=
  .concat [.alwaysBreak (.concat [.text "a", .text "b"]), .text "c"]

/-- **C3 counterexample.** At `c3CounterDoc`, one normalization pass
leaves a `Concat` whose immediate child is a `Concat`, and a second pass
changes the result: normalization is neither nested-`Concat`-free nor
idempotent in one pass, contrary to the claim. -/
theorem normalize_not_idempotent_counterexample :
    normalizeDoc c3CounterDoc =
      .alwaysBreak (.concat [.concat [.text "a", .text "b"], .text "c"]) ∧
    hasNestedConcat (normalizeDoc c3CounterDoc) = true ∧
    normalizeDoc (normalizeDoc c3CounterDoc) ≠ normalizeDoc c3CounterDoc := by
  refine ⟨rfl, rfl, ?_⟩
  intro h
  have h2 : hasNestedConcat (normalizeDoc (normalizeDoc c3CounterDoc)) =
      hasNestedConcat (normalizeDoc c3CounterDoc) := by rw [h]
  exact Bool.noConfusion h2

/-- **C3 (amended).** Normalization is idempotent on Docs containing no
`AlwaysBreak` node, and on Docs additionally free of `Fill` and
`FlatChoice` (whose children the source leaves unnormalized, lazily for
`FlatChoice`) the result contains no `Concat` with an immediate `Concat`
child.  In general, hoisting `AlwaysBreak` out of a `Concat` appends the
unwrapped payload without re-flattening, so a nested `Concat` can
survive one pass and a second pass can simplify further. -/
theorem normalize_idempotent_amended (d : Doc) :
    (noAB d = true → normalizeDoc (normalizeDoc d) = normalizeDoc d) ∧
    (eagerOnly d = true → hasNestedConcat (normalizeDoc d) = false) :=
  ⟨fun h => normalize_fix_of_noAB d h, fun h => hnc_normalize d h⟩

/-- A concrete `AlwaysBreak`/`Fill`/`FlatChoice`-free Doc for the C3
witness. -/
def c3WitnessDoc : Doc :=
  .group (.concat [.text "a", .concat [.text "b", .nil], .nest 2 (.text "c")])

/-- Witness for `normalize_idempotent_amended` at `c3WitnessDoc`. -/
theorem normalize_idempotent_amended_witness :
    noAB c3WitnessDoc = true ∧ eagerOnly c3WitnessDoc = true ∧
    normalizeDoc (normalizeDoc c3WitnessDoc) = normalizeDoc c3WitnessDoc ∧
    hasNestedConcat (normalizeDoc c3WitnessDoc) = false :=
  ⟨by decide, by decide,
   (normalize_idempotent_amended c3WitnessDoc).1 (by decide),
   (normalize_idempotent_amended c3WitnessDoc).2 (by decide)⟩

/-- The Doc `AlwaysBreak(Text('a'))`, whose normalization is itself an
`AlwaysBreak`. -/
def c6CounterInner : Doc := .alwaysBreak (.text "a")

/-- **C6 counterexample.** For `d = AlwaysBreak(Text('a'))`, normalizing
`Group(AlwaysBreak(d))` yields `AlwaysBreak(Text('a'))` (the doubled
`AlwaysBreak` collapses), not `AlwaysBreak(normalize(d))` as the claim
states. -/
theorem group_always_break_counterexample :
    normalizeDoc (.group (.alwaysBreak c6CounterInner)) =
      .alwaysBreak (.text "a") ∧
    normalizeDoc (.group (.alwaysBreak c6CounterInner)) ≠
      .alwaysBreak (normalizeDoc c6CounterInner) := by
  refine ⟨rfl, ?_⟩
  intro h
  have h2 : (Doc.unwrapAB (normalizeDoc (.group (.alwaysBreak c6CounterInner)))).isAB =
      (Doc.unwrapAB (.alwaysBreak (normalizeDoc c6CounterInner))).isAB := by rw [h]
  exact Bool.noConfusion h2

/-- **C6 (amended).** Normalizing `Group(Concat([a, AlwaysBreak(b), c]))`
always yields an outermost `AlwaysBreak` (the enclosing `Group` is
replaced); normalizing `Group(AlwaysBreak(d))` yields
`normalize(AlwaysBreak(d))` — always an `AlwaysBreak` node, and equal to
`AlwaysBreak(normalize(d))` whenever `normalize(d)` is not itself an
`AlwaysBreak`; and `Group(Nil)` normalizes to `Nil`. -/
theorem group_always_break_hoisting :
    (∀ a b c : Doc,
      (normalizeDoc (.group (.concat [a, .alwaysBreak b, c]))).isAB = true) ∧
    (∀ d : Doc,
      normalizeDoc (.group (.alwaysBreak d)) = normalizeDoc (.alwaysBreak d) ∧
      (normalizeDoc (.alwaysBreak d)).isAB = true) ∧
    (∀ d : Doc, (normalizeDoc d).isAB = false →
      normalizeDoc (.group (.alwaysBreak d)) = .alwaysBreak (normalizeDoc d)) ∧
    normalizeDoc (.group .nil) = .nil := by
  refine ⟨group_concat_ab_hoists, ?_, ?_, rfl⟩
  · intro d
    obtain ⟨x, hx⟩ := isAB_ex (normalizeDoc_ab_isAB d)
    exact ⟨by rw [normalizeDoc_group_of_ab _ _ hx, hx], normalizeDoc_ab_isAB d⟩
  · intro d h
    have hab := normalizeDoc_ab_of_not_ab d h
    exact normalizeDoc_group_of_ab _ _ hab

/-- Witness for `group_always_break_hoisting`, discharging the
hypothesis of the conditional conjunct at `d = Text('x')`. -/
theorem group_always_break_hoisting_witness :
    (normalizeDoc (Doc.text "x")).isAB = false ∧
    normalizeDoc (.group (.alwaysBreak (.text "x"))) =
      .alwaysBreak (normalizeDoc (.text "x")) ∧
    (normalizeDoc (.group (.concat [.text "u", .alwaysBreak (.text "v"),
      .text "w"]))).isAB = true :=
  ⟨rfl, group_always_break_hoisting.2.2.1 (.text "x") rfl,
   group_always_break_hoisting.1 (.text "u") (.text "v") (.text "w")⟩

/-- The `FlatChoice` cell produced by normalizing
`FlatChoice(when_broken=Text('x'), when_flat=Concat([Concat(['a'])]))`. -/
def c4Cell : FlatChoiceCell :=
  normalizedCell (.text "x") (.concat [.concat [.text "a"]])

/-- **C4.** After lazy normalization (`normalize_on_access` set),
accessing `when_flat` *first* returns the branch **un**normalized and
caches nothing, because the property's guard tests `_broken_normalized`
instead of `normalize_on_access` (`doctypes.py` line 153) — contrary to
the claim (and to the class's own comment) that each branch is
normalized on first access in any access order.  Accessing `when_broken`
does normalize, and only after that does a `when_flat` access normalize. -/
theorem flatchoice_when_flat_access_not_normalized :
    (accessWhenFlat c4Cell).1 = .concat [.concat [.text "a"]] ∧
    normalizeDoc (accessWhenFlat c4Cell).1 ≠ (accessWhenFlat c4Cell).1 ∧
    (accessWhenFlat c4Cell).2.flatNormalized = false ∧
    (accessWhenBroken c4Cell).1 = normalizeDoc (.text "x") ∧
    (accessWhenFlat (accessWhenBroken c4Cell).2).1 =
      normalizeDoc (.concat [.concat [.text "a"]]) := by
  refine ⟨rfl, ?_, rfl, rfl, rfl⟩
  intro h
  have h2 : (normalizeDoc (accessWhenFlat c4Cell).1).isConcat =
      ((accessWhenFlat c4Cell).1).isConcat := by rw [h]
  exact Bool.noConfusion h2

/-! ### Value→Doc dispatch (`prettyprinter.py`, `_run_pretty`)

Only the identity and type name of a value matter to the dispatcher's
recursion detection and placeholder text; printers are abstracted as
functions that may raise and may touch the shared visited set through
their own nested dispatch calls. -/

/-- A Python value as seen by the dispatcher. -/
structure PyObj where
  id : Nat
  typeName : String
deriving DecidableEq, Repr

/-- A raised Python exception; the class matters only for the
`trailing_comment` `TypeError` probe in `_run_pretty`. -/
inductive PyErr where
  | typeError (msg : String)
  | valueError (msg : String)
  | other (msg : String)
deriving DecidableEq, Repr

/-- `PrettyContext.visited` is a Python `set` of ids, mutated in place;
modelled as a duplicate-free list.  `start_visit` = `addVisit`,
`end_visit` = `removeVisit` (`prettyprinter.py` lines 314-318). -/
def addVisit (vis : List Nat) (i : Nat) : List Nat :=
  if i ∈ vis then vis else i :: vis

def removeVisit (vis : List Nat) (i : Nat) : List Nat := vis.erase i

/-- A registered printer as the dispatcher sees it.  `callPlain v vis`
models `pretty_fn(value, ctx)` where the shared visited set currently
holds `vis`; it returns the produced Doc or a raised exception, plus the
visited set as the printer's nested dispatch calls left it.  `callTc`
models `pretty_fn(value, ctx, trailing_comment=...)`; `acceptsTrailing`
models whether `inspect.signature(pretty_fn).bind(value, ctx,
trailing_comment=...)` succeeds — when it is false, the keyword call
itself raises `TypeError` before the body runs.  The `ValueError` raised
for non-`str`/`Doc` returns is not modelled: printers here return Docs
by type. -/
structure Printer where
  qualname : String
  callPlain : PyObj → List Nat → Except PyErr Doc × List Nat
  callTc : PyObj → List Nat → String → Except PyErr Doc × List Nat
  acceptsTrailing : Bool

/-- `_pretty_recursion` (`prettyprinter.py` lines 1644-1648). -/
def prettyRecursion (v : PyObj) : String :=
  "<Recursion on " ++ v.typeName ++ " with id=" ++ toString v.id ++ ">"

/-- The warning text of `_run_pretty` lines 348-353 (abridged to the
fields the model carries). -/
def noTrailingWarning (p : Printer) (v : PyObj) : String :=
  "The pretty printer for " ++ v.typeName ++ ", " ++ p.qualname ++
    ", does not support rendering trailing comments. " ++
    "It will not show up in output."

/-- `_run_pretty` (`prettyprinter.py` lines 324-378).  Returns the
result (or the propagated exception), the visited set after the call,
and the warnings emitted.  Control flow follows the source: recursion
check first; `start_visit`; with a trailing comment, call with the
keyword and on `TypeError` probe the signature — an accepting printer's
own `TypeError` (like any other exception) is re-raised, a rejecting
signature warns and retries without the keyword; `end_visit` runs only
on the normal return path (line 376). -/
def runPretty (p : Printer) (v : PyObj) (vis : List Nat) (tc : Option String) :
    Except PyErr Doc × List Nat × List String :=
  if v.id ∈ vis then (.ok (.text (prettyRecursion v)), vis, [])
  else
    let vis1 := addVisit vis v.id
    match tc with
    | some c =>
      if p.acceptsTrailing then
        match p.callTc v vis1 c with
        | (.error e, vis2) => (.error e, vis2, [])
        | (.ok doc, vis2) => (.ok doc, removeVisit vis2 v.id, [])
      else
        match p.callPlain v vis1 with
        | (.error e, vis2) => (.error e, vis2, [noTrailingWarning p v])
        | (.ok doc, vis2) => (.ok doc, removeVisit vis2 v.id, [noTrailingWarning p v])
    | none =>
      match p.callPlain v vis1 with
      | (.error e, vis2) => (.error e, vis2, [])
      | (.ok doc, vis2) => (.ok doc, removeVisit vis2 v.id, [])

theorem addVisit_remove {vis : List Nat} {i : Nat} (hv : i ∉ vis) :
    removeVisit (addVisit vis i) i = vis := by
  simp [addVisit, removeVisit, hv]

/-- A printer whose body raises `ValueError`, as in the repo's
`test_bad_printer_caught` test. -/
def failingPrinter : Printer where
  qualname := "tests.test_prettyprinter.pretty_myclass"
  callPlain := fun _ vis => (.error (.valueError "boom"), vis)
  callTc := fun _ vis _ => (.error (.valueError "boom"), vis)
  acceptsTrailing := false

/-- The dispatched value for the C1/C2 scenarios. -/
def c1Obj : PyObj := ⟨7, "MyClass"⟩

/-- **C1.** Contrary to the claim (and to the repository's own
`test_bad_printer_caught`, which expects a `UserWarning` and a `repr`
fallback), `_run_pretty` has no general exception handler: a printer
that raises propagates its exception out of the dispatcher — no warning,
no default-representation fallback — and the visited set keeps
`id(value)`. -/
theorem printer_exception_propagates :
    runPretty failingPrinter c1Obj [] none =
      (.error (.valueError "boom"), [7], []) := rfl

/-- **C2 (amended).** `start_visit(value)` adds `id(value)` before the
printer runs; `end_visit(value)` removes it only on the normal return
path.  If the printer returns normally and leaves the shared set as it
received it, the set after dispatch equals the set before; if the
printer raises, the exception propagates with `end_visit` skipped, so
the set after the call still holds `id(value)` — it is *not* restored. -/
theorem visited_bracketing (p : Printer) (v : PyObj) (vis : List Nat)
    (hv : v.id ∉ vis) :
    (∀ d : Doc,
      p.callPlain v (addVisit vis v.id) = (.ok d, addVisit vis v.id) →
      runPretty p v vis none = (.ok d, vis, [])) ∧
    (∀ (e : PyErr) (vis2 : List Nat),
      p.callPlain v (addVisit vis v.id) = (.error e, vis2) →
      runPretty p v vis none = (.error e, vis2, [])) ∧
    (∀ e : PyErr,
      p.callPlain v (addVisit vis v.id) = (.error e, addVisit vis v.id) →
      v.id ∈ (runPretty p v vis none).2.1) := by
  refine ⟨?_, ?_, ?_⟩
  · intro d hcall
    simp [runPretty, hv, hcall, addVisit_remove hv]
  · intro e vis2 hcall
    simp [runPretty, hv, hcall]
  · intro e hcall
    simp only [runPretty, if_neg hv, hcall]
    simp [addVisit, hv]

/-- A printer that returns a Doc and does not touch the visited set. -/
def okPrinter : Printer where
  qualname := "tests.ok_printer"
  callPlain := fun _ vis => (.ok (.text "ok"), vis)
  callTc := fun _ vis _ => (.ok (.text "ok"), vis)
  acceptsTrailing := true

/-- Witness for `visited_bracketing`: a normal dispatch restores the
visited set; a raising dispatch leaves `7` in it. -/
theorem visited_bracketing_witness :
    (7 ∉ ([] : List Nat)) ∧
    runPretty okPrinter c1Obj [] none = (.ok (.text "ok"), [], []) ∧
    runPretty failingPrinter c1Obj [] none =
      (.error (.valueError "boom"), [7], []) ∧
    7 ∈ (runPretty failingPrinter c1Obj [] none).2.1 :=
  ⟨by decide,
   (visited_bracketing okPrinter c1Obj [] (by decide)).1 _ rfl,
   (visited_bracketing failingPrinter c1Obj [] (by decide)).2.1 _ _ rfl,
   (visited_bracketing failingPrinter c1Obj [] (by decide)).2.2 _ rfl⟩

/-- **C2 counterexample.** The claim says the visited set is unchanged
after any dispatch call that raises; at `failingPrinter` the set goes
from `[]` to `[7]`. -/
theorem visited_not_restored_counterexample :
    (runPretty failingPrinter c1Obj [] none).1 =
      .error (.valueError "boom") ∧
    (runPretty failingPrinter c1Obj [] none).2.1 = [7] ∧
    ([7] : List Nat) ≠ [] := ⟨rfl, rfl, by decide⟩

/-! ### Cycle handling end-to-end (C7): a value-graph model

Formatting a cyclic Python object graph needs an explicit heap.  We
model the containers relevant to cycle detection — ints and lists — and
mirror the dispatch pipeline for them: the `_run_pretty` recursion check
returning the `_pretty_recursion` placeholder, and
`pretty_bracketable_iterable`'s truncation of a list to its first
`max_seq_len` elements with the `...and N more elements` trailing
comment (`prettyprinter.py` lines 983-1008).  The depth limit is the
default `float('inf')` and is not modelled.  Output is a flat chunk
stream; the loop takes fuel, and termination is the explicit
fuel-sufficiency theorem below. -/

/-- A heap node: an int or a list of child object ids. -/
inductive PyNode where
  | intV (n : Int)
  | listV (children : List Nat)
deriving DecidableEq, Repr

/-- A heap: object ids to nodes. -/
def Heap := List (Nat × PyNode)

/-- The `type(value).__name__` used in the recursion placeholder. -/
def typeNameAt (heap : Heap) (i : Nat) : String :=
  match List.lookup i heap with
  | some (.intV _) => "int"
  | some (.listV _) => "list"
  | none => "object"

/-- A flat output chunk: literal text, the recursion placeholder of
`_pretty_recursion`, or the truncation trailing comment. -/
inductive Chunk where
  | txt (s : String)
  | recur (ty : String) (i : Nat)
  | moreElements (n : Nat)
deriving DecidableEq, Repr

def Chunk.isRecur : Chunk → Bool
  | .recur _ _ => true
  | _ => false

/-- The text a chunk renders to; `recur` renders `_pretty_recursion`'s
`'<Recursion on TYPE with id=N>'`, `moreElements` the
`'...and N more elements'` comment. -/
def chunkText : Chunk → String
  | .txt s => s
  | .recur ty i => "<Recursion on " ++ ty ++ " with id=" ++ toString i ++ ">"
  | .moreElements n => "# ...and " ++ toString n ++ " more elements"

mutual

/-- Render one object: the `_run_pretty` visited check first (placeholder
chunk, no descent), then the int printer or the list printer with
truncation to the first `max_seq_len` children; an id absent from the
heap stands for a value handled by the `repr` fallback. -/
def renderNodeF (maxSeqLen : Nat) (heap : Heap) :
    Nat → List Nat → Nat → Option (List Chunk)
  | 0, _, _ => none
  | fuel + 1, visited, i =>
    if i ∈ visited then some [.recur (typeNameAt heap i) i]
    else
      match List.lookup i heap with
      | none => some [.txt "<object>"]
      | some (.intV n) => some [.txt (toString n)]
      | some (.listV cs) =>
        (renderListF maxSeqLen heap fuel (i :: visited) (cs.take maxSeqLen)).map
          (fun rs => [Chunk.txt "["] ++ rs ++
            (if maxSeqLen < cs.length then
              [Chunk.moreElements (cs.length - maxSeqLen)]
            else []) ++ [Chunk.txt "]"])

/-- Render the (already truncated) children in order, concatenating the
chunk streams. -/
def renderListF (maxSeqLen : Nat) (heap : Heap) :
    Nat → List Nat → List Nat → Option (List Chunk)
  | 0, _, _ => none
  | _ + 1, _, [] => some []
  | fuel + 1, visited, c :: cs =>
    match renderNodeF maxSeqLen heap fuel visited c,
        renderListF maxSeqLen heap fuel visited cs with
    | some rc, some rcs => some (rc ++ rcs)
    | _, _ => none

end

mutual

/-- One more unit of fuel never changes a successful render. -/
theorem renderNodeF_step_mono :
    ∀ (m : Nat) (h : Heap) (fuel : Nat) (visited : List Nat) (i : Nat)
      (out : List Chunk),
      renderNodeF m h fuel visited i = some out →
      renderNodeF m h (fuel + 1) visited i = some out
  | m, h, 0, visited, i, out, hsome => by simp [renderNodeF] at hsome
  | m, h, fuel + 1, visited, i, out, hsome => by
    by_cases hvis : i ∈ visited
    · simpa [renderNodeF, hvis] using (by simpa [renderNodeF, hvis] using hsome)
    · rcases hlook : List.lookup i h with _ | ⟨_ | cs⟩ <;>
        simp only [renderNodeF, hvis, if_neg, hlook, ite_false] at hsome ⊢
      · simpa using hsome
      · simpa using hsome
      · rcases Option.map_eq_some'.mp hsome with ⟨rs, hrs, rfl⟩
        rw [renderListF_step_mono m h fuel (i :: visited) _ rs hrs]
        rfl

theorem renderListF_step_mono :
    ∀ (m : Nat) (h : Heap) (fuel : Nat) (visited : List Nat) (cs : List Nat)
      (out : List Chunk),
      renderListF m h fuel visited cs = some out →
      renderListF m h (fuel + 1) visited cs = some out
  | m, h, 0, visited, cs, out, hsome => by simp [renderListF] at hsome
  | m, h, fuel + 1, visited, [], out, hsome => by simpa [renderListF] using hsome
  | m, h, fuel + 1, visited, c :: cs, out, hsome => by
    simp only [renderListF] at hsome ⊢
    rcases hc : renderNodeF m h fuel visited c with _ | rc <;> rw [hc] at hsome
    · exact absurd hsome (by simp)
    rcases hcs : renderListF m h fuel visited cs with _ | rcs <;> rw [hcs] at hsome
    · exact absurd hsome (by simp)
    rw [renderNodeF_step_mono m h fuel visited c rc hc,
      renderListF_step_mono m h fuel visited cs rcs hcs]
    exact hsome

end

theorem renderNodeF_mono_le {m : Nat} {h : Heap} {f f' : Nat}
    {visited : List Nat} {i : Nat} {out : List Chunk} (hle : f ≤ f')
    (hsome : renderNodeF m h f visited i = some out) :
    renderNodeF m h f' visited i = some out := by
  induction hle with
  | refl => exact hsome
  | step _ ih => exact renderNodeF_step_mono _ _ _ _ _ _ ih

theorem renderListF_mono_le {m : Nat} {h : Heap} {f f' : Nat}
    {visited : List Nat} {cs : List Nat} {out : List Chunk} (hle : f ≤ f')
    (hsome : renderListF m h f visited cs = some out) :
    renderListF m h f' visited cs = some out := by
  induction hle with
  | refl => exact hsome
  | step _ ih => exact renderListF_step_mono _ _ _ _ _ _ ih

/-- The number of heap ids not yet on the visit path: the measure that
shrinks at every descent. -/
def unvisitedCount (heap : Heap) (visited : List Nat) : Nat :=
  ((heap.map Prod.fst).filter (fun j => decide (j ∉ visited))).length

theorem lookup_mem_ids {heap : Heap} {i : Nat} {node : PyNode}
    (h : List.lookup i heap = some node) : i ∈ heap.map Prod.fst := by
  induction heap with
  | nil => simp [List.lookup] at h
  | cons p rest ih =>
    rcases p with ⟨j, nd⟩
    by_cases hij : i = j
    · simp [hij]
    · right
      have hne : (i == j) = false := by simpa using hij
      exact ih (by simpa [List.lookup, hne] using h)

theorem filter_notmem_cons_le (l visited : List Nat) (i : Nat) :
    (l.filter (fun j => decide (j ∉ i :: visited))).length ≤
      (l.filter (fun j => decide (j ∉ visited))).length := by
  induction l with
  | nil => simp
  | cons a l ih =>
    simp only [List.filter_cons]
    by_cases hnew : a ∉ i :: visited
    · have hold : a ∉ visited := fun hc => hnew (List.mem_cons_of_mem _ hc)
      simp only [decide_eq_true hnew, decide_eq_true hold, List.length_cons]
      exact Nat.succ_le_succ ih
    · simp only [decide_eq_false hnew]
      by_cases hold : a ∉ visited
      · simp only [decide_eq_true hold, List.length_cons]
        exact Nat.le_succ_of_le ih
      · simp only [decide_eq_false hold]
        exact ih

theorem filter_notmem_cons_lt {l visited : List Nat} {i : Nat}
    (hmem : i ∈ l) (hnv : i ∉ visited) :
    (l.filter (fun j => decide (j ∉ i :: visited))).length <
      (l.filter (fun j => decide (j ∉ visited))).length := by
  induction l with
  | nil => simp at hmem
  | cons a l ih =>
    simp only [List.filter_cons]
    rcases List.mem_cons.mp hmem with rfl | hmem'
    · have hnew : ¬ i ∉ i :: visited := fun hc => hc (List.mem_cons_self i _)
      simp only [decide_eq_false hnew, decide_eq_true hnv, List.length_cons]
      exact Nat.lt_succ_of_le (filter_notmem_cons_le l visited i)
    · have hlt := ih hmem'
      by_cases hnew : a ∉ i :: visited
      · have hold : a ∉ visited := fun hc => hnew (List.mem_cons_of_mem _ hc)
        simp only [decide_eq_true hnew, decide_eq_true hold, List.length_cons]
        exact Nat.succ_lt_succ hlt
      · simp only [decide_eq_false hnew]
        by_cases hold : a ∉ visited
        · simp only [decide_eq_true hold, List.length_cons]
          exact Nat.lt_succ_of_lt hlt
        · simp only [decide_eq_false hold]
          exact hlt

theorem unvisitedCount_lt {heap : Heap} {visited : List Nat} {i : Nat}
    (hmem : i ∈ heap.map Prod.fst) (hnv : i ∉ visited) :
    unvisitedCount heap (i :: visited) < unvisitedCount heap visited :=
  filter_notmem_cons_lt hmem hnv

/-- Fuel sufficiency — the formal content of "formatting terminates":
for every heap, visit path and root there is a fuel on which the
renderer succeeds (more fuel keeps the same answer by monotonicity). -/
theorem render_total :
    ∀ (n maxL : Nat) (heap : Heap) (visited : List Nat) (i : Nat),
      unvisitedCount heap visited ≤ n →
      ∃ fuel out, renderNodeF maxL heap fuel visited i = some out := by
  intro n
  induction n with
  | zero =>
    intro maxL heap visited i hle
    by_cases hvis : i ∈ visited
    · exact ⟨1, [.recur (typeNameAt heap i) i], by simp [renderNodeF, hvis]⟩
    rcases hlook : List.lookup i heap with _ | ⟨n0 | cs⟩
    · exact ⟨1, [.txt "<object>"], by simp [renderNodeF, hvis, hlook]⟩
    · exact ⟨1, [.txt (toString n0)], by simp [renderNodeF, hvis, hlook]⟩
    · exact absurd hle (by
        have := unvisitedCount_lt (lookup_mem_ids hlook) hvis
        omega)
  | succ n ih =>
    intro maxL heap visited i hle
    by_cases hvis : i ∈ visited
    · exact ⟨1, [.recur (typeNameAt heap i) i], by simp [renderNodeF, hvis]⟩
    rcases hlook : List.lookup i heap with _ | ⟨n0 | cs⟩
    · exact ⟨1, [.txt "<object>"], by simp [renderNodeF, hvis, hlook]⟩
    · exact ⟨1, [.txt (toString n0)], by simp [renderNodeF, hvis, hlook]⟩
    · have hdec : unvisitedCount heap (i :: visited) ≤ n := by
        have := unvisitedCount_lt (lookup_mem_ids hlook) hvis
        omega
      have hlist : ∀ cs2 : List Nat, ∃ fuel out,
          renderListF maxL heap fuel (i :: visited) cs2 = some out := by
        intro cs2
        induction cs2 with
        | nil => exact ⟨1, [], rfl⟩
        | cons c cs2 ihl =>
          obtain ⟨f1, o1, h1⟩ := ih maxL heap (i :: visited) c hdec
          obtain ⟨f2, o2, h2⟩ := ihl
          refine ⟨max f1 f2 + 1, o1 ++ o2, ?_⟩
          have h1' := renderNodeF_mono_le (Nat.le_max_left f1 f2) h1
          have h2' := renderListF_mono_le (Nat.le_max_right f1 f2) h2
          simp [renderListF, h1', h2']
      obtain ⟨fl, ol, hl⟩ := hlist (cs.take maxL)
      refine ⟨fl + 1, [Chunk.txt "["] ++ ol ++
        (if maxL < cs.length then [Chunk.moreElements (cs.length - maxL)]
         else []) ++ [Chunk.txt "]"], ?_⟩
      simp [renderNodeF, hvis, hlook, hl]

/-- A list of heap nodes each of which is a list value keeping — within
its first `max_seq_len` children — a successor in the list: a cycle (or
a family of cycles) that truncation does not cut off. -/
def KeptCycle (heap : Heap) (maxL : Nat) (S : List Nat) : Prop :=
  ∀ x ∈ S, ∃ cs, List.lookup x heap = some (.listV cs) ∧
    ∃ y ∈ cs.take maxL, y ∈ S

/-- Every child of a successfully rendered list has its own successful
render (at smaller fuel) whose chunks all appear in the list's output. -/
theorem renderListF_mem :
    ∀ (m : Nat) (h : Heap) (fuel : Nat) (visited cs : List Nat)
      (rs : List Chunk),
      renderListF m h fuel visited cs = some rs →
      ∀ c ∈ cs, ∃ fc, fc < fuel ∧ ∃ rc,
        renderNodeF m h fc visited c = some rc ∧ ∀ x ∈ rc, x ∈ rs := by
  intro m h fuel
  induction fuel with
  | zero => intro visited cs rs hsome; simp [renderListF] at hsome
  | succ fuel ih =>
    intro visited cs rs hsome c hc
    rcases cs with _ | ⟨c0, cs'⟩
    · simp at hc
    · simp only [renderListF] at hsome
      rcases h0 : renderNodeF m h fuel visited c0 with _ | rc0 <;> rw [h0] at hsome
      · exact absurd hsome (by simp)
      rcases h1 : renderListF m h fuel visited cs' with _ | rcs <;> rw [h1] at hsome
      · exact absurd hsome (by simp)
      have hrs : rs = rc0 ++ rcs := by
        have := hsome.symm
        simpa using this
      subst hrs
      rcases List.mem_cons.mp hc with rfl | hc'
      · exact ⟨fuel, Nat.lt_succ_self _, rc0, h0,
          fun x hx => List.mem_append_left _ hx⟩
      · obtain ⟨fc, hfc, rc, hrc, hsub⟩ := ih visited cs' rcs h1 c hc'
        exact ⟨fc, Nat.lt_succ_of_lt hfc, rc, hrc,
          fun x hx => List.mem_append_right _ (hsub x hx)⟩

/-- If the root lies on a cycle that truncation keeps, any completed
render of it contains a recursion placeholder chunk. -/
theorem cycle_marker :
    ∀ (fuel maxL : Nat) (heap : Heap) (S visited : List Nat) (i : Nat)
      (out : List Chunk),
      KeptCycle heap maxL S → i ∈ S →
      renderNodeF maxL heap fuel visited i = some out →
      ∃ ty j, Chunk.recur ty j ∈ out := by
  intro fuel
  induction fuel using Nat.strong_induction_on with
  | _ fuel ih =>
    intro maxL heap S visited i out hS hiS hsome
    rcases fuel with _ | fuel
    · simp [renderNodeF] at hsome
    by_cases hvis : i ∈ visited
    · refine ⟨typeNameAt heap i, i, ?_⟩
      have hout : out = [Chunk.recur (typeNameAt heap i) i] := by
        have := hsome.symm
        simpa [renderNodeF, hvis] using this
      simp [hout]
    · obtain ⟨cs, hlook, y, hy, hyS⟩ := hS i hiS
      simp only [renderNodeF, if_neg hvis, hlook] at hsome
      rcases Option.map_eq_some'.mp hsome with ⟨rs, hrs, rfl⟩
      obtain ⟨fc, hfc, rc, hrc, hsub⟩ :=
        renderListF_mem maxL heap fuel (i :: visited) (cs.take maxL) rs hrs y hy
      obtain ⟨ty, j, hmem⟩ :=
        ih fc (Nat.lt_succ_of_lt hfc) maxL heap S (i :: visited) y rc hS hyS hrc
      refine ⟨ty, j, ?_⟩
      have : Chunk.recur ty j ∈ rs := hsub _ hmem
      simp [this]

/-- **C7 (amended).** (1) For every value whose id is already in
`ctx.visited`, dispatch returns the textual placeholder
`'<Recursion on TYPE with id=N>'` with the value's type name and
identity — uniformly in the registered printer, i.e. without calling it
or descending — without raising and leaving the visited set untouched.
(2) Formatting terminates on every value graph: some fuel suffices for
the graph renderer.  (3) If the root lies on a cycle that the
`max_seq_len` truncation keeps, the completed output contains a
recursion placeholder chunk, whose text carries the `Recursion on`
marker.  (The truncation proviso in (3) is forced by the
counterexample.) -/
theorem recursion_placeholder_and_cycles :
    (∀ (p : Printer) (v : PyObj) (vis : List Nat) (tc : Option String),
      v.id ∈ vis →
      runPretty p v vis tc = (.ok (.text (prettyRecursion v)), vis, [])) ∧
    (∀ (maxL : Nat) (heap : Heap) (visited : List Nat) (i : Nat),
      ∃ fuel out, renderNodeF maxL heap fuel visited i = some out) ∧
    (∀ (fuel maxL : Nat) (heap : Heap) (S visited : List Nat) (i : Nat)
        (out : List Chunk),
      KeptCycle heap maxL S → i ∈ S →
      renderNodeF maxL heap fuel visited i = some out →
      ∃ ty j, Chunk.recur ty j ∈ out ∧
        chunkText (Chunk.recur ty j) =
          "<Recursion on " ++ ty ++ " with id=" ++ toString j ++ ">") := by
  refine ⟨?_, ?_, ?_⟩
  · intro p v vis tc hv
    simp [runPretty, hv]
  · intro maxL heap visited i
    exact render_total (unvisitedCount heap visited) maxL heap visited i le_rfl
  · intro fuel maxL heap S visited i out hS hiS hsome
    obtain ⟨ty, j, hmem⟩ := cycle_marker fuel maxL heap S visited i out hS hiS hsome
    exact ⟨ty, j, hmem, rfl⟩

/-- The heap `0 ↦ [1, 0]`, `1 ↦ 4`: object 0 is a list containing
itself as its second element. -/
def c7Heap : Heap := [(0, .listV [1, 0]), (1, .intV 4)]

/-- **C7 counterexample.** With `max_seq_len = 1`, the self-reference of
the cyclic value `0` is truncated away: formatting terminates, but the
output (`[4]` plus the `...and 1 more elements` comment) contains no
`Recursion on` placeholder, contradicting the claim's universal
consequence for cyclic value graphs. -/
theorem cycle_placeholder_counterexample :
    List.lookup 0 c7Heap = some (.listV [1, 0]) ∧ (0 : Nat) ∈ [1, 0] ∧
    renderNodeF 1 c7Heap 10 [] 0 =
      some [.txt "[", .txt "4", .moreElements 1, .txt "]"] ∧
    ([Chunk.txt "[", .txt "4", .moreElements 1, .txt "]"].all
      (fun ch => ! ch.isRecur)) = true := by
  refine ⟨rfl, by decide, by decide, by decide⟩

/-- The one-node cyclic heap `0 ↦ [0]`. -/
def c7CycleHeap : Heap := [(0, .listV [0])]

/-- Witness for `recursion_placeholder_and_cycles`: a visited value gets
the placeholder under an arbitrary concrete printer, and the kept
self-cycle `0 ↦ [0]` renders with a `Recursion on` chunk. -/
theorem recursion_placeholder_and_cycles_witness :
    runPretty okPrinter ⟨3, "dict"⟩ [3] none =
      (.ok (.text (prettyRecursion ⟨3, "dict"⟩)), [3], []) ∧
    renderNodeF 1 c7CycleHeap 10 [] 0 =
      some [.txt "[", .recur "list" 0, .txt "]"] ∧
    (∃ ty j, Chunk.recur ty j ∈
        [Chunk.txt "[", Chunk.recur "list" 0, Chunk.txt "]"] ∧
      chunkText (Chunk.recur ty j) =
        "<Recursion on " ++ ty ++ " with id=" ++ toString j ++ ">") := by
  have hcyc : KeptCycle c7CycleHeap 1 [0] := by
    intro x hx
    rcases List.mem_singleton.mp hx with rfl
    exact ⟨[0], rfl, 0, by decide, by decide⟩
  exact ⟨recursion_placeholder_and_cycles.1 okPrinter ⟨3, "dict"⟩ [3] none (by decide),
    by decide,
    recursion_placeholder_and_cycles.2.2 10 1 c7CycleHeap [0] [] 0
      [Chunk.txt "[", Chunk.recur "list" 0, Chunk.txt "]"] hcyc (by decide)
      (by decide)⟩

/-! ### The built-in container printers (`prettyprinter.py`)

`pretty_bracketable_iterable` and `pretty_dict` with their helpers
`bracket`, `commentdoc` and `sequence_of_docs`.  Element/key/value
rendering goes through the process-wide dispatch (`pretty_python_value`
and `pretty_str`); the embedding abstracts those as function parameters
receiving the exact contexts the source passes. -/

/-- The `MULTILINE_STATEGY_*` constants (`prettyprinter.py` lines
71-92). -/
inductive MLStrategy where
  | plain
  | parens
  | indented
  | hang
deriving DecidableEq, Repr

/-- `PrettyContext` (lines 231-321), restricted to the fields the
container printers read; `user_ctx` is not needed here.  A `depth_left`
of `float('inf')` is `none`. -/
structure Ctx where
  indent : Int
  depthLeft : Option Int
  visited : List Nat
  multilineStrategy : MLStrategy
  maxSeqLen : Nat
  sortDictKeys : Bool

/-- `PrettyContext.nested_call` (lines 311-312): decrement
`depth_left` (`inf - 1 = inf`). -/
def Ctx.nestedCall (c : Ctx) : Ctx :=
  { c with depthLeft := c.depthLeft.map (· - 1) }

/-- `PrettyContext.use_multiline_strategy` (lines 287-288). -/
def Ctx.useMultilineStrategy (c : Ctx) (s : MLStrategy) : Ctx :=
  { c with multilineStrategy := s }

/-- `ctx.depth_left == 0` (`float('inf')` never equals 0). -/
def Ctx.depthZero (c : Ctx) : Bool :=
  match c.depthLeft with
  | some n => n == 0
  | none => false

/-- `ctx.depth_left <= 0`, the check used by `pretty_call`. -/
def Ctx.depthLeZero (c : Ctx) : Bool :=
  match c.depthLeft with
  | some n => n ≤ 0
  | none => false

/-- The punctuation constants of `prettyprinter.py` lines 39-50. -/
def COMMA : Doc := .annotated (.text ",") (.token .punctuation)

def COLON : Doc := .annotated (.text ":") (.token .punctuation)

def ELLIPSIS : Doc := .annotated (.text "...") (.token .punctuation)

def LPAREN : Doc := .annotated (.text "(") (.token .punctuation)

def RPAREN : Doc := .annotated (.text ")") (.token .punctuation)

def LBRACKET : Doc := .annotated (.text "[") (.token .punctuation)

def RBRACKET : Doc := .annotated (.text "]") (.token .punctuation)

def LBRACE : Doc := .annotated (.text "\x7b") (.token .punctuation)

def RBRACE : Doc := .annotated (.text "\x7d") (.token .punctuation)

/-- `bracket` (lines 564-570). -/
def bracket (ctx : Ctx) (left child right : Doc) : Doc :=
  .concat [left, .nest ctx.indent (.concat [SOFTLINE, child]), SOFTLINE, right]

/-- `is_commented` (lines 193-197): an `Annotated` wrapping a
`CommentAnnotation`. -/
def isCommented : Doc → Bool
  | .annotated _ (.comment _) => true
  | _ => false

/-- `doc.annotation.value` of a commented doc (empty string
otherwise; only applied under `isCommented`). -/
def commentValueOf : Doc → String
  | .annotated _ (.comment s) => s
  | _ => ""

/-- `doc.doc` of a commented doc (identity otherwise). -/
def commentedInner : Doc → Doc
  | .annotated d (.comment _) => d
  | d => d

/-- Maximal runs of whitespace/non-whitespace characters:
`filter(None, WHITESPACE_PATTERN_TEXT.split(line))`. -/
def groupRuns : List Char → List (List Char)
  | [] => []
  | c :: rest =>
    match groupRuns rest with
    | [] => [[c]]
    | g :: gs =>
      match g with
      | [] => [c] :: gs
      | d :: _ =>
        if c.isWhitespace == d.isWhitespace then (c :: g) :: gs
        else [c] :: g :: gs

def splitRuns (s : String) : List String :=
  (groupRuns s.toList).map (fun g => String.mk g)

/-- One line of `commentdoc` (lines 582-618): split off a leading
whitespace run as the prefix, drop a trailing whitespace run (even run
count), turn every whitespace run into a `FlatChoice` that breaks to a
fresh `'# '` line, and `fill`.  (On an empty line the source would
raise `IndexError` at `alternating_words_ws[0]`; the model returns the
no-prefix form, unreachable from the claims.) -/
def commentLineDoc (line : String) : Doc :=
  let runs := splitRuns line
  match runs with
  | [] => .concat [.text "# ", .nil, .fill []]
  | r0 :: _ =>
    let startsWs :=
      match r0.toList with
      | c :: _ => c.isWhitespace
      | [] => false
    let pfx := if startsWs then Doc.text r0 else Doc.nil
    let alt1 := if startsWs then runs.tail else runs
    let alt2 := if alt1.length % 2 == 0 then alt1.dropLast else alt1
    let parts := alt2.enum.map (fun p =>
      if p.1 % 2 == 1 then
        Doc.flatChoice (.alwaysBreak (.concat [.hardline, .text "# "]))
          (.text p.2) false false false
      else Doc.text p.2)
    .concat [.text "# ", pfx, .fill parts]

/-- `commentdoc` (lines 573-628).  The source raises `ValueError` on an
empty comment string; the model is total (the claims only apply it to
nonempty truncation messages).  `splitlines` is modelled as splitting
on `'\n'`. -/
def commentdoc (text : String) : Doc :=
  let commentlines := (text.splitOn "\n").map commentLineDoc
  let inner := Doc.concat (List.intersperse Doc.hardline commentlines)
  .annotated (if commentlines.length > 1 then .alwaysBreak inner else inner)
    (.token .commentSingle)

/-- The element loop of `sequence_of_docs` (lines 650-691): a commented
element becomes a `Group(FlatChoice(flat-version, broken-version))`;
a plain element is followed by `', ' LINE` unless last. -/
def seqParts : List Doc → List Doc
  | [] => []
  | [d] =>
    if isCommented d then
      [.group (.flatChoice
        (.concat [commentdoc (commentValueOf d), .hardline, d, .nil, .nil])
        (.concat [d, .nil, .text "  ", commentdoc (commentValueOf d), .nil])
        false false false)]
    else [d]
  | d :: rest =>
    (if isCommented d then
      [.group (.flatChoice
        (.concat [commentdoc (commentValueOf d), .hardline, d, COMMA, .hardline])
        (.concat [d, COMMA, .text "  ", commentdoc (commentValueOf d), .hardline])
        false false false)]
    else [d, .concat [COMMA, LINE]]) ++ seqParts rest

/-- `sequence_of_docs` (lines 631-699).  `minimum_output_len` uses Nat
subtraction (for empty `docs` Python gets `0`, the model `2`; both are
below the 150 threshold, so the branch agrees). -/
def sequence_of_docs (ctx : Ctx) (left : Doc) (docs : List Doc)
    (right : Doc) (dangle force_break : Bool) : Doc :=
  let minimumOutputLen := 2 + 2 * (docs.length - 1) + docs.length
  let willBreak := force_break || decide (minimumOutputLen > 150)
  let hasComment := docs.any isCommented
  let parts := seqParts docs ++ (if dangle then [COMMA] else [])
  let inner := bracket ctx left (.concat parts) right
  if willBreak || hasComment then .alwaysBreak inner else .group inner

/-- The bracket kinds handled by `pretty_bracketable_iterable`. -/
inductive SeqKind where
  | list
  | tuple
  | set
deriving DecidableEq, Repr

def leftBracketOf : SeqKind → Doc
  | .list => LBRACKET
  | .tuple => LPAREN
  | .set => LBRACE

def rightBracketOf : SeqKind → Doc
  | .list => RBRACKET
  | .tuple => RPAREN
  | .set => RBRACE

/-- `pretty_call(ctx, set)` unfolded for the empty-set branch (line
1026): with no arguments `build_fncall` returns
`concat([fndoc, LPAREN, RPAREN])` after the `depth_left <= 0` check;
`general_identifier(set)` is `builtin_identifier('set')`. -/
def pretty_call_set (ctx : Ctx) : Doc :=
  let fndoc := Doc.annotated (.text "set") (.token .nameBuiltin)
  if ctx.depthLeZero then .concat [fndoc, LPAREN, ELLIPSIS, RPAREN]
  else .concat [fndoc, LPAREN, RPAREN]

/-- The element docs of `pretty_bracketable_iterable` (lines
1031-1054): a sole element is rendered with the `PLAIN` multiline
strategy, several elements with `HANG`, always under `nested_call`. -/
def pbiEls {α : Type} (prettyEl : α → Ctx → Doc) (xs : List α) (ctx : Ctx) :
    List Doc :=
  match xs with
  | [x] => [prettyEl x (ctx.nestedCall.useMultilineStrategy .plain)]
  | _ => xs.map (fun x => prettyEl x (ctx.nestedCall.useMultilineStrategy .hang))

/-- The body of `pretty_bracketable_iterable` after the truncation check
(lines 1010-1067), over an abstract element type.  `prettyEl x c` stands
for `pretty_python_value(x, ctx=c)`. -/
def pbiCore {α : Type} (prettyEl : α → Ctx → Doc) (kind : SeqKind)
    (xs : List α) (ctx : Ctx) (tc : Option String) : Doc :=
  let left := leftBracketOf kind
  let right := rightBracketOf kind
  let dangle0 := kind == .tuple && xs.length == 1
  if xs.isEmpty then
    match kind with
    | .list => .concat [left, right]
    | .tuple => .concat [left, right]
    | .set => pretty_call_set ctx
  else if ctx.depthZero then .concat [left, ELLIPSIS, right]
  else
    let els := pbiEls prettyEl xs ctx
    match tc with
    | some c => sequence_of_docs ctx left (els ++ [commentdoc c]) right false true
    | none => sequence_of_docs ctx left els right dangle0 false

/-- `pretty_bracketable_iterable` (lines 983-1067).  A value longer than
`max_seq_len` is truncated to its first `max_seq_len` elements
(`value[:max_seq_len]`, or `take` for sets) and re-printed with the
`'...and N more elements'` trailing comment chained in front of any
existing one; the re-entrant call can no longer truncate, so it is the
core body. -/
def pretty_bracketable_iterable {α : Type} (prettyEl : α → Ctx → Doc)
    (kind : SeqKind) (xs : List α) (ctx : Ctx) (tc : Option String) : Doc :=
  if xs.length > ctx.maxSeqLen then
    let truncationComment :=
      "...and " ++ toString (xs.length - ctx.maxSeqLen) ++ " more elements"
    pbiCore prettyEl kind (xs.take ctx.maxSeqLen) ctx
      (some (match tc with
        | some c => truncationComment ++ ". " ++ c
        | none => truncationComment))
  else pbiCore prettyEl kind xs ctx tc

/-- The data of one iteration of `pretty_dict`'s pair loop (lines
1121-1158): the rendered key/value docs with their extracted comments. -/
structure DictPair (κ υ : Type) where
  k : κ
  v : υ
  kdoc : Doc
  vdoc : Doc
  kcomment : Option String
  vcomment : Option String

/-- One iteration of the pair loop.  `prettyKey k c` stands for the
source's key branch — `pretty_str(k, ctx.use_multiline_strategy(PARENS))`
(not a nested call, on purpose) for `str`/`bytes` keys,
`pretty_python_value(k, ctx.nested_call())` otherwise; `prettyVal`
stands for `pretty_python_value` on the value. -/
def dictPairOf {κ υ : Type} (prettyKey : κ → Ctx → Doc)
    (prettyVal : υ → Ctx → Doc) (ctx : Ctx) (k : κ) (v : υ) : DictPair κ υ :=
  let kdoc0 := prettyKey k ctx
  let vdoc0 := prettyVal v (ctx.nestedCall.useMultilineStrategy .indented)
  { k := k, v := v
    kdoc := if isCommented kdoc0 then commentedInner kdoc0 else kdoc0
    vdoc := if isCommented vdoc0 then commentedInner vdoc0 else vdoc0
    kcomment := if isCommented kdoc0 then some (commentValueOf kdoc0) else none
    vcomment := if isCommented vdoc0 then some (commentValueOf vdoc0) else none }

/-- The parts loop of `pretty_dict` (lines 1160-1238). -/
def dictPairParts {κ υ : Type} (prettyVal : υ → Ctx → Doc) (ctx : Ctx) :
    List (DictPair κ υ) → List Doc
  | [] => []
  | p :: rest =>
    let last := rest.isEmpty
    let part :=
      if p.kcomment.isNone && p.vcomment.isNone then
        Doc.concat [p.kdoc, .concat [COLON, .text " "], p.vdoc,
          if last then .nil else COMMA, if last then .nil else LINE]
      else
        let kcommented :=
          match p.kcomment with
          | some kc => Doc.concat [commentdoc kc, .hardline, p.kdoc]
          | none => p.kdoc
        let vcommented :=
          match p.vcomment with
          | some vc =>
            Doc.group (.flatChoice
              (.concat [.nest ctx.indent (.concat [.hardline, commentdoc vc,
                .hardline,
                prettyVal p.v (ctx.nestedCall.useMultilineStrategy .plain),
                if last then .nil else COMMA,
                if last then .nil else .hardline])])
              (.concat [p.vdoc, if last then .nil else COMMA, .text "  ",
                commentdoc vc, if last then .nil else .hardline])
              false false false)
          | none =>
            Doc.concat [p.vdoc, if last then .nil else COMMA,
              if last then .nil else LINE]
        Doc.concat [kcommented, .concat [COLON, .text " "], vcommented]
    part :: dictPairParts prettyVal ctx rest

/-- The body of `pretty_dict` after the depth and truncation checks
(lines 1113-1258).  `sortKeys` stands for
`sorted(d.keys(), key=_AlwaysSortable)`; the dict is an association
list iterated in insertion order, with `d[k]` as `lookup`. -/
def prettyDictCore {κ υ : Type} [DecidableEq κ] [Inhabited υ]
    (prettyKey : κ → Ctx → Doc) (prettyVal : υ → Ctx → Doc)
    (sortKeys : List κ → List κ) (d : List (κ × υ)) (ctx : Ctx)
    (tc : Option String) : Doc :=
  let keys := d.map Prod.fst
  let sortedKeys := if ctx.sortDictKeys then sortKeys keys else keys
  let pairs := sortedKeys.map (fun k =>
    dictPairOf prettyKey prettyVal ctx k ((List.lookup k d).getD default))
  let hasComment := tc.isSome ||
    pairs.any (fun p => p.kcomment.isSome || p.vcomment.isSome)
  let parts := dictPairParts prettyVal ctx pairs ++
    (match tc with
      | some c => [Doc.concat [.hardline, commentdoc c]]
      | none => [])
  let doc := bracket ctx LBRACE (.concat parts) RBRACE
  if pairs.length > 2 || hasComment then .alwaysBreak doc else .group doc

/-- `pretty_dict` (lines 1093-1258): the `depth_left == 0` check comes
first, then truncation to the first `max_seq_len` items with the
`'...and N more elements'` trailing comment; the re-entrant call cannot
truncate or hit the depth check again, so it is the core body. -/
def pretty_dict {κ υ : Type} [DecidableEq κ] [Inhabited υ]
    (prettyKey : κ → Ctx → Doc) (prettyVal : υ → Ctx → Doc)
    (sortKeys : List κ → List κ) (d : List (κ × υ)) (ctx : Ctx)
    (tc : Option String) : Doc :=
  if ctx.depthZero then .concat [LBRACE, ELLIPSIS, RBRACE]
  else if d.length > ctx.maxSeqLen then
    let truncationComment :=
      "...and " ++ toString (d.length - ctx.maxSeqLen) ++ " more elements"
    prettyDictCore prettyKey prettyVal sortKeys (d.take ctx.maxSeqLen) ctx
      (some (match tc with
        | some c => truncationComment ++ ". " ++ c
        | none => truncationComment))
  else prettyDictCore prettyKey prettyVal sortKeys d ctx tc

theorem lookup_mem {κ υ : Type} [DecidableEq κ] (d : List (κ × υ)) (k : κ)
    (hk : k ∈ d.map Prod.fst) :
    ∃ v, List.lookup k d = some v ∧ (k, v) ∈ d := by
  induction d with
  | nil => simp at hk
  | cons p rest ih =>
    rcases p with ⟨k0, v0⟩
    have hk2 : k ∈ k0 :: rest.map Prod.fst := by
      simpa only [List.map_cons] using hk
    by_cases hkk : k = k0
    · subst hkk
      exact ⟨v0, by simp [List.lookup], by simp⟩
    · have hk' : k ∈ rest.map Prod.fst := by
        rcases List.mem_cons.mp hk2 with h | h
        · exact absurd h hkk
        · exact h
      obtain ⟨v, hl, hm⟩ := ih hk'
      have hne : (k == k0) = false := by simpa using hkk
      exact ⟨v, by simp [List.lookup, hne, hl], by simp [hm]⟩

/-- Iterating the keys of a duplicate-free association list and looking
each key back up reconstructs the list (the dict pair loop reads
`d[k]`). -/
theorem pairs_eq_map {κ υ : Type} [DecidableEq κ] [Inhabited υ]
    (pk : κ → Ctx → Doc) (pv : υ → Ctx → Doc) (ctx : Ctx)
    (d : List (κ × υ)) (hnd : (d.map Prod.fst).Nodup) :
    (d.map Prod.fst).map
        (fun k => dictPairOf pk pv ctx k ((List.lookup k d).getD default)) =
      d.map (fun kv => dictPairOf pk pv ctx kv.1 kv.2) := by
  induction d with
  | nil => rfl
  | cons p rest ih =>
    rcases p with ⟨k0, v0⟩
    have hnd2 : (k0 :: rest.map Prod.fst).Nodup := by
      simpa only [List.map_cons] using hnd
    obtain ⟨hnotin, hnd'⟩ := List.nodup_cons.mp hnd2
    simp only [List.map_cons, List.cons.injEq]
    refine ⟨by simp [List.lookup], ?_⟩
    rw [show (rest.map Prod.fst).map (fun k =>
        dictPairOf pk pv ctx k ((List.lookup k ((k0, v0) :: rest)).getD default)) =
      (rest.map Prod.fst).map (fun k =>
        dictPairOf pk pv ctx k ((List.lookup k rest).getD default)) from ?_]
    · exact ih hnd'
    · apply List.map_congr_left
      intro k hkmem
      have hne : (k == k0) = false := by
        simp only [beq_eq_false_iff_ne]
        intro heq
        exact hnotin (heq ▸ hkmem)
      simp [List.lookup, hne]

/-- **C8.** For every list, tuple or set with `N > max_seq_len` elements
(and for every dict with `N > max_seq_len` items), under a context that
is not depth-exhausted, with `max_seq_len ≥ 1` (the interface requires
it), key sorting off and duplicate-free dict keys: the printer renders
exactly the first `max_seq_len` elements and attaches the trailing
comment `'...and (N - max_seq_len) more elements'`, force-breaking the
sequence. -/
theorem truncation_renders_first_maxlen {α κ υ : Type} [DecidableEq κ]
    [Inhabited υ] (prettyEl : α → Ctx → Doc) (prettyKey : κ → Ctx → Doc)
    (prettyVal : υ → Ctx → Doc) (sortKeys : List κ → List κ)
    (kind : SeqKind) (xs : List α) (d : List (κ × υ)) (ctx : Ctx)
    (hlen : xs.length > ctx.maxSeqLen) (hmax : 1 ≤ ctx.maxSeqLen)
    (hdepth : ctx.depthZero = false) (hdlen : d.length > ctx.maxSeqLen)
    (hsort : ctx.sortDictKeys = false) (hnd : (d.map Prod.fst).Nodup) :
    (pretty_bracketable_iterable prettyEl kind xs ctx none =
        sequence_of_docs ctx (leftBracketOf kind)
          (pbiEls prettyEl (xs.take ctx.maxSeqLen) ctx ++
            [commentdoc ("...and " ++ toString (xs.length - ctx.maxSeqLen) ++
              " more elements")])
          (rightBracketOf kind) false true ∧
      (xs.take ctx.maxSeqLen).length = ctx.maxSeqLen) ∧
    (pretty_dict prettyKey prettyVal sortKeys d ctx none =
        .alwaysBreak (bracket ctx LBRACE
          (.concat (dictPairParts prettyVal ctx
              ((d.take ctx.maxSeqLen).map
                (fun kv => dictPairOf prettyKey prettyVal ctx kv.1 kv.2)) ++
            [.concat [.hardline,
              commentdoc ("...and " ++ toString (d.length - ctx.maxSeqLen) ++
                " more elements")]]))
          RBRACE) ∧
      (d.take ctx.maxSeqLen).length = ctx.maxSeqLen) := by
  have htake : (xs.take ctx.maxSeqLen).length = ctx.maxSeqLen := by
    rw [List.length_take]
    omega
  have hdtake : (d.take ctx.maxSeqLen).length = ctx.maxSeqLen := by
    rw [List.length_take]
    omega
  constructor
  · refine ⟨?_, htake⟩
    have hne : (xs.take ctx.maxSeqLen).isEmpty = false := by
      cases hxs : xs.take ctx.maxSeqLen with
      | nil => rw [hxs] at htake; simp at htake; omega
      | cons a l => rfl
    simp only [pretty_bracketable_iterable, if_pos hlen]
    simp only [pbiCore, hne, hdepth, Bool.false_eq_true, if_false]
  · refine ⟨?_, hdtake⟩
    have hnd' : ((d.take ctx.maxSeqLen).map Prod.fst).Nodup := by
      exact List.Nodup.sublist
        (List.Sublist.map Prod.fst (List.take_sublist ctx.maxSeqLen d)) hnd
    simp only [pretty_dict, hdepth, Bool.false_eq_true, if_false, if_pos hdlen]
    simp only [prettyDictCore, hsort, Bool.false_eq_true, if_false,
      pairs_eq_map prettyKey prettyVal ctx (d.take ctx.maxSeqLen) hnd']
    simp

/-- With a trailing comment present, `pretty_dict`'s body always wraps
in `AlwaysBreak` (`has_comment` is true). -/
theorem prettyDictCore_some_isAB {κ υ : Type} [DecidableEq κ] [Inhabited υ]
    (pk : κ → Ctx → Doc) (pv : υ → Ctx → Doc) (sk : List κ → List κ)
    (d : List (κ × υ)) (ctx : Ctx) (c : String) :
    (prettyDictCore pk pv sk d ctx (some c)).isAB = true := by
  simp [prettyDictCore, Doc.isAB]

/-- **C10.** The built-in dict printer wraps a mapping of more than two
entries in `AlwaysBreak` (so it always renders on multiple lines, even
when it would fit the width and ribbon budgets flat), and wraps a
mapping of at most two entries with no comments — no trailing/truncation
comment (so also no truncation) and no commented key or value docs — in
`Group`, which may render on one line.  Stated for key sorting off and a
context that is not depth-exhausted. -/
theorem dict_always_break_over_two {κ υ : Type} [DecidableEq κ] [Inhabited υ]
    (prettyKey : κ → Ctx → Doc) (prettyVal : υ → Ctx → Doc)
    (sortKeys : List κ → List κ) (d : List (κ × υ)) (ctx : Ctx)
    (hdepth : ctx.depthZero = false) (hsort : ctx.sortDictKeys = false) :
    (d.length > 2 →
      (pretty_dict prettyKey prettyVal sortKeys d ctx none).isAB = true) ∧
    (d.length ≤ 2 → d.length ≤ ctx.maxSeqLen →
      (∀ kv ∈ d, isCommented (prettyKey kv.1 ctx) = false ∧
        isCommented
          (prettyVal kv.2 (ctx.nestedCall.useMultilineStrategy .indented)) =
            false) →
      (pretty_dict prettyKey prettyVal sortKeys d ctx none).isGroup = true) := by
  constructor
  · intro hlen
    by_cases htr : d.length > ctx.maxSeqLen
    · simp only [pretty_dict, hdepth, Bool.false_eq_true, if_false, if_pos htr]
      exact prettyDictCore_some_isAB _ _ _ _ _ _
    · simp only [pretty_dict, hdepth, Bool.false_eq_true, if_false, if_neg htr]
      simp only [prettyDictCore, hsort, Bool.false_eq_true, if_false]
      split
      · rfl
      · rename_i hcond
        exfalso
        apply hcond
        rw [Bool.or_eq_true]
        refine Or.inl ?_
        simpa [List.length_map] using hlen
  · intro hlen htr hcomm
    have hntr : ¬ d.length > ctx.maxSeqLen := by omega
    simp only [pretty_dict, hdepth, Bool.false_eq_true, if_false, if_neg hntr]
    simp only [prettyDictCore, hsort, Bool.false_eq_true, if_false]
    have hnocomm : ∀ p ∈ (d.map Prod.fst).map (fun k =>
        dictPairOf prettyKey prettyVal ctx k
          ((List.lookup k d).getD default)),
        (p.kcomment.isSome || p.vcomment.isSome) = false := by
      intro p hp
      rcases List.mem_map.mp hp with ⟨k, hk, rfl⟩
      obtain ⟨v, hlv, hmem⟩ := lookup_mem d k hk
      obtain ⟨hkc, hvc⟩ := hcomm (k, v) hmem
      simp [dictPairOf, hlv, hkc, hvc]
    split
    · rename_i hcond
      exfalso
      rw [Bool.or_eq_true] at hcond
      rcases hcond with h | h
      · have : ((d.map Prod.fst).map (fun k =>
            dictPairOf prettyKey prettyVal ctx k
              ((List.lookup k d).getD default))).length > 2 := by
          exact of_decide_eq_true (by simpa [List.map_map] using h)
        simp only [List.length_map] at this
        omega
      · rw [Bool.or_eq_true] at h
        rcases h with h' | h'
        · simp at h'
        · have h2 : ((d.map Prod.fst).map (fun k =>
              dictPairOf prettyKey prettyVal ctx k
                ((List.lookup k d).getD default))).any
              (fun p => p.kcomment.isSome || p.vcomment.isSome) = true := by
            simpa [List.map_map] using h'
          rw [List.any_eq_true] at h2
          obtain ⟨p, hp, hps⟩ := h2
          rw [hnocomm p hp] at hps
          exact Bool.noConfusion hps
    · rfl

/-- Concrete instantiations for the truncation/dict witnesses. -/
def c8Ctx : Ctx := ⟨4, none, [], .plain, 2, false⟩

def c8El : Nat → Ctx → Doc := fun n _ => .text (toString n)

def c8Key : Nat → Ctx → Doc := fun n _ => .text (toString n)

def c8Val : Nat → Ctx → Doc := fun n _ => .text (toString n)

def c8D : List (Nat × Nat) := [(1, 10), (2, 20), (3, 30)]

/-- Witness for `truncation_renders_first_maxlen`: a three-element list
and a three-entry dict at `max_seq_len = 2`. -/
theorem truncation_renders_first_maxlen_witness :
    (([1, 2, 3] : List Nat).length > c8Ctx.maxSeqLen ∧
      1 ≤ c8Ctx.maxSeqLen ∧ c8Ctx.depthZero = false ∧
      c8D.length > c8Ctx.maxSeqLen ∧ c8Ctx.sortDictKeys = false ∧
      (c8D.map Prod.fst).Nodup) ∧
    ((pretty_bracketable_iterable c8El .list [1, 2, 3] c8Ctx none =
        sequence_of_docs c8Ctx (leftBracketOf .list)
          (pbiEls c8El (([1, 2, 3] : List Nat).take c8Ctx.maxSeqLen) c8Ctx ++
            [commentdoc ("...and " ++
              toString (([1, 2, 3] : List Nat).length - c8Ctx.maxSeqLen) ++
              " more elements")])
          (rightBracketOf .list) false true ∧
      (([1, 2, 3] : List Nat).take c8Ctx.maxSeqLen).length =
        c8Ctx.maxSeqLen) ∧
    (pretty_dict c8Key c8Val id c8D c8Ctx none =
        .alwaysBreak (bracket c8Ctx LBRACE
          (.concat (dictPairParts c8Val c8Ctx
              ((c8D.take c8Ctx.maxSeqLen).map
                (fun kv => dictPairOf c8Key c8Val c8Ctx kv.1 kv.2)) ++
            [.concat [.hardline,
              commentdoc ("...and " ++
                toString (c8D.length - c8Ctx.maxSeqLen) ++
                " more elements")]]))
          RBRACE) ∧
      (c8D.take c8Ctx.maxSeqLen).length = c8Ctx.maxSeqLen)) :=
  ⟨⟨by decide, by decide, rfl, by decide, rfl, by decide⟩,
   truncation_renders_first_maxlen c8El c8Key c8Val id .list [1, 2, 3] c8D
     c8Ctx (by decide) (by decide) rfl (by decide) rfl (by decide)⟩

def c10Ctx : Ctx := ⟨4, none, [], .plain, 5, false⟩

def c10D2 : List (Nat × Nat) := [(1, 10), (2, 20)]

/-- Witness for `dict_always_break_over_two`: a three-entry dict is
`AlwaysBreak`-wrapped, a comment-free two-entry dict is
`Group`-wrapped. -/
theorem dict_always_break_over_two_witness :
    c10Ctx.depthZero = false ∧ c10Ctx.sortDictKeys = false ∧
    (pretty_dict c8Key c8Val id c8D c10Ctx none).isAB = true ∧
    (pretty_dict c8Key c8Val id c10D2 c10Ctx none).isGroup = true :=
  ⟨rfl, rfl,
   (dict_always_break_over_two c8Key c8Val id c8D c10Ctx rfl rfl).1 (by decide),
   (dict_always_break_over_two c8Key c8Val id c10D2 c10Ctx rfl rfl).2
     (by decide) (by decide) (by decide)⟩
